import Mathlib

/-!
Verification of the temap timed key/value store.

The repository contains two closely related implementations of the same
design: the library package (files defining `TimedMap` with a background
cleaner and an intrusive expiry min-heap) and a worker-pool variant of the
same map (package with `startExpireWorkers`, a bounded expire queue and a
wake channel).  Both share the `element` struct, the `expiryHeap`
(Go `container/heap` over entries ordered by `ExpiresAt`, with the intrusive
`index` field maintained by `Swap`/`Push`/`Pop`) and the counter struct.

This file is a shallow embedding of those data structures and operations:

* Go `time.Time` values are embedded as the pair of observations the code
  makes of them: `UnixNano` (an `Int`; the code only compares these, so no
  64-bit wraparound is exercised) and `IsZero`.
* The Go map `items map[any]*element` is embedded as an association list
  `List (K × Elem V)`; the `element` is stored under its key, and the heap's
  backing array `expiryHeap []*element` is embedded as the list of the keys
  of the elements it holds (pointer identity coincides with key identity
  in every state the theorems below quantify over; the well-formedness
  predicate `WF` rules out aliasing).  A write through the shared pointer
  (`el.Value = v`, `el.index = i`, ...) becomes an update of the entry at
  that key, visible to both the map and the heap.
* The `uint64` statistics counters only ever increase by 1 in the source,
  so they are embedded as `Nat`.
* The cleaner goroutine's drain loop and the dispatch of expired entries to
  the worker pool are embedded as pure functions; calling a nil Go function
  value (which panics) is modelled by `Except.error`.

Namespace `temap` holds the library package's methods, namespace `wpool`
the worker-pool variant's methods; each definition is translated from the
corresponding Go method body.
-/

set_option autoImplicit false

/-- A Go `time.Time` argument, reduced to the two observations the code
makes of it: `UnixNano()` and `IsZero()`. -/
structure GoTime where
  nano : Int
  isZero : Bool
deriving Repr, DecidableEq

/-- Go constant `ElementPermanent = 0`: sentinel `ExpiresAt` of an entry that
never expires. -/
def ElementPermanent : Int := 0

/-- Go constant `ElementDoesntExist = -1`: expiry reported by `Get` for an
absent key. -/
def ElementDoesntExist : Int := -1

/-- The `element` struct (its `Key` field is the association-list key under
which the element is stored): payload `Value`, absolute `ExpiresAt`
(UnixNano; `0` = permanent), and the intrusive heap `index`. -/
structure Elem (V : Type) where
  value : V
  expiresAt : Int
  index : Int
deriving Repr, DecidableEq

/-- The `stats` struct of cumulative counters. -/
structure CStats where
  added : Nat
  removed : Nat
  expired : Nat
  permanent : Nat
deriving Repr, DecidableEq

/-- The state of a `TimedMap`: the `items` map, the `expiryHeap` backing
array (as the list of keys of its elements), and the counters. -/
structure TimedMap (K V : Type) where
  items : List (K × Elem V)
  expHeap : List K
  stats : CStats
deriving Repr, DecidableEq

/-- The result of `Stats()`: the five-entry map it builds. -/
structure StatsView where
  added : Nat
  removed : Nat
  expired : Nat
  permanent : Nat
  current : Nat
deriving Repr, DecidableEq

section AssocMap

variable {K V : Type} [DecidableEq K]

/-- Lookup in the `items` map. -/
def lookupKV (m : List (K × Elem V)) (k : K) : Option (Elem V) :=
  match m with
  | [] => none
  | (k', e) :: rest => if k' = k then some e else lookupKV rest k

/-- A write through the `*element` pointer stored under key `k`
(`el.Value = ...`, `el.ExpiresAt = ...`, `el.index = ...`). -/
def modifyKV (m : List (K × Elem V)) (k : K) (f : Elem V → Elem V) :
    List (K × Elem V) :=
  m.map fun p => (p.1, if p.1 = k then f p.2 else p.2)

/-- Go `delete(t.items, key)`. -/
def eraseKV (m : List (K × Elem V)) (k : K) : List (K × Elem V) :=
  m.filter fun p => p.1 ≠ k

/-- `el.index = i` for the element stored under `k` (no-op if `k` is absent,
matching a write through a pointer that is no longer reachable from the
map). -/
def setIdx (m : List (K × Elem V)) (k : K) (i : Int) : List (K × Elem V) :=
  modifyKV m k fun e => { e with index := i }

/-- The `ExpiresAt` of the element stored under `k` (`0` if absent; the code
only reads it for keys present in the map). -/
def expOf (m : List (K × Elem V)) (k : K) : Int :=
  ((lookupKV m k).map Elem.expiresAt).getD 0

end AssocMap

section HeapOps

variable {K V : Type} [DecidableEq K] [Inhabited K]

/-- Read of `h[i]` on the heap's backing array. -/
def hget (h : List K) (i : Nat) : K := h.getD i default

/-- `expiryHeap.Less(i, j)`: compares the `ExpiresAt` of the elements at
positions `i` and `j`. -/
def hLess (m : List (K × Elem V)) (h : List K) (i j : Nat) : Bool :=
  expOf m (hget h i) < expOf m (hget h j)

/-- `expiryHeap.Swap(i, j)`: swaps the two slots and updates both swapped
elements' `index` fields (`h[i].index = i; h[j].index = j`). -/
def hSwap (m : List (K × Elem V)) (h : List K) (i j : Nat) :
    List (K × Elem V) × List K :=
  let ki := hget h i
  let kj := hget h j
  (setIdx (setIdx m kj i) ki j, (h.set i kj).set j ki)

/-- `container/heap.up(h, j)`, with an explicit iteration counter: the
sifted position strictly decreases, and at position `0` the loop breaks
(`i = j`), so `j` iterations always suffice; `hUp_eq` below recovers the
Go recurrence. -/
def hUpF (fuel : Nat) (m : List (K × Elem V)) (h : List K) (j : Nat) :
    List (K × Elem V) × List K :=
  match fuel with
  | 0 => (m, h)
  | fuel + 1 =>
    let i := (j - 1) / 2
    if i = j ∨ ¬ hLess m h j i then (m, h)
    else
      let s := hSwap m h i j
      hUpF fuel s.1 s.2 i

/-- `container/heap.up(h, j)`. -/
def hUp (m : List (K × Elem V)) (h : List K) (j : Nat) :
    List (K × Elem V) × List K :=
  hUpF j m h j

/-- `container/heap.down(h, i, n)` with an explicit iteration counter: the
sifted position strictly increases and the loop breaks once `2*i+1 >= n`,
so `n - i` iterations always suffice; `hDownAux_eq` below recovers the Go
recurrence.  Besides the final heap, the final position of the sifted
element is returned. -/
def hDownAuxF (fuel : Nat) (m : List (K × Elem V)) (h : List K) (i n : Nat) :
    List (K × Elem V) × List K × Nat :=
  match fuel with
  | 0 => (m, h, i)
  | fuel + 1 =>
    let j1 := 2 * i + 1
    if j1 ≥ n then (m, h, i)
    else
      let j := if j1 + 1 < n ∧ hLess m h (j1 + 1) j1 then j1 + 1 else j1
      if ¬ hLess m h j i then (m, h, i)
      else
        let s := hSwap m h i j
        hDownAuxF fuel s.1 s.2 j n

/-- `container/heap.down(h, i, n)` (recursion; also returns the final
position of the sifted element). -/
def hDownAux (m : List (K × Elem V)) (h : List K) (i n : Nat) :
    List (K × Elem V) × List K × Nat :=
  hDownAuxF (n - i) m h i n

/-- `container/heap.down(h, i0, n)`, returning `i > i0` as the Go function
does. -/
def hDown (m : List (K × Elem V)) (h : List K) (i0 n : Nat) :
    List (K × Elem V) × List K × Bool :=
  let r := hDownAux m h i0 n
  (r.1, r.2.1, decide (i0 < r.2.2))

/-- `container/heap.Push`: the interface `Push` (sets `el.index = len(*h)`
and appends) followed by `up(h, h.Len()-1)`. -/
def hPush (m : List (K × Elem V)) (h : List K) (k : K) :
    List (K × Elem V) × List K :=
  let m1 := setIdx m k (Int.ofNat h.length)
  hUp m1 (h ++ [k]) h.length

/-- `container/heap.Pop`: `Swap(0, n)`, `down(0, n)`, then the interface
`Pop` (removes the last slot, sets its element's `index = -1`, returns
it). -/
def hPopHeap (m : List (K × Elem V)) (h : List K) :
    K × List (K × Elem V) × List K :=
  let n := h.length - 1
  let s := hSwap m h 0 n
  let d := hDown s.1 s.2 0 n
  let k := hget d.2.1 n
  (k, setIdx d.1 k (-1), d.2.1.take n)

/-- `container/heap.Remove(h, i)`: if `i` is not the last slot, swap with
the last slot and sift (`down`, and `up` when `down` did not move), then the
interface `Pop`. -/
def hRemoveAt (m : List (K × Elem V)) (h : List K) (i : Nat) :
    K × List (K × Elem V) × List K :=
  let n := h.length - 1
  if i ≠ n then
    let s := hSwap m h i n
    let d := hDown s.1 s.2 i n
    let u := if d.2.2 then (d.1, d.2.1) else hUp d.1 d.2.1 i
    let k := hget u.2 n
    (k, setIdx u.1 k (-1), u.2.take n)
  else
    let k := hget h n
    (k, setIdx m k (-1), h.take n)

/-- `container/heap.Fix(h, i)`: `down(i, h.Len())`, and `up(i)` when `down`
did not move the element. -/
def hFix (m : List (K × Elem V)) (h : List K) (i : Nat) :
    List (K × Elem V) × List K :=
  let d := hDown m h i h.length
  if d.2.2 then (d.1, d.2.1) else hUp d.1 d.2.1 i

end HeapOps

/-- The state `New` constructs: empty map, empty heap (after `heap.Init` of
an empty heap), zero counters. -/
def emptyTM (K V : Type) : TimedMap K V := ⟨[], [], ⟨0, 0, 0, 0⟩⟩

namespace temap

variable {K V : Type} [DecidableEq K] [Inhabited K]

/-- Library `SetTemporary(key, value, expiresAt)`. -/
def SetTemporary (st : TimedMap K V) (k : K) (v : V) (t : GoTime) :
    TimedMap K V :=
  let exp := t.nano
  match lookupKV st.items k with
  | some el =>
    -- el.Value = value; el.ExpiresAt = exp
    let m1 := modifyKV st.items k (fun e => { e with value := v, expiresAt := exp })
    -- if el.ExpiresAt != ElementPermanent { heap.Fix(&t.expHeap, el.index) }
    if exp ≠ ElementPermanent then
      let f := hFix m1 st.expHeap el.index.toNat
      { st with items := f.1, expHeap := f.2 }
    else
      { st with items := m1 }
  | none =>
    let el : Elem V := { value := v, expiresAt := exp, index := 0 }
    let m1 := st.items ++ [(k, el)]
    if exp ≠ ElementPermanent then
      let p := hPush m1 st.expHeap k
      { st with
        items := p.1
        expHeap := p.2
        stats := { st.stats with added := st.stats.added + 1 } }
    else
      { st with
        items := m1
        stats := { st.stats with
                   added := st.stats.added + 1
                   permanent := st.stats.permanent + 1 } }

/-- Library `SetPermanent(key, value)`. -/
def SetPermanent (st : TimedMap K V) (k : K) (v : V) : TimedMap K V :=
  match lookupKV st.items k with
  | some _ =>
    -- el.Value = value; el.ExpiresAt = ElementPermanent
    { st with
      items := modifyKV st.items k (fun e =>
        { e with value := v, expiresAt := ElementPermanent }) }
  | none =>
    { st with
      items := st.items ++ [(k, ⟨v, ElementPermanent, 0⟩)]
      stats := { st.stats with
                 added := st.stats.added + 1
                 permanent := st.stats.permanent + 1 } }

/-- Library `SetWithTTL(key, value, ttl)`; `now` is the value of
`time.Now()` at the call (never the zero `time.Time`). -/
def SetWithTTL (st : TimedMap K V) (k : K) (v : V) (ttl now : Int) :
    TimedMap K V :=
  if ttl ≤ 0 then SetPermanent st k v
  else SetTemporary st k v { nano := now + ttl, isZero := false }

/-- Library `Get(key)`; the returned map is the receiver's state when the
method returns (its body performs no writes). -/
def Get (st : TimedMap K V) (k : K) :
    (Option V × Int × Bool) × TimedMap K V :=
  match lookupKV st.items k with
  | none => ((none, ElementDoesntExist, false), st)
  | some el => ((some el.value, el.expiresAt, true), st)

/-- Library `Remove(key)`. -/
def Remove (st : TimedMap K V) (k : K) : TimedMap K V :=
  match lookupKV st.items k with
  | none => st
  | some el =>
    let m1 := eraseKV st.items k
    let mh :=
      if el.expiresAt ≠ ElementPermanent ∧ el.index ≥ 0 ∧
          el.index < Int.ofNat st.expHeap.length then
        let r := hRemoveAt m1 st.expHeap el.index.toNat
        (r.2.1, r.2.2)
      else (m1, st.expHeap)
    { st with
      items := mh.1
      expHeap := mh.2
      stats := { st.stats with removed := st.stats.removed + 1 } }

/-- Library `RemoveAll()`: fresh map, fresh heap, counters untouched. -/
def RemoveAll (st : TimedMap K V) : TimedMap K V :=
  { st with items := [], expHeap := [] }

/-- Library `Size()`. -/
def Size (st : TimedMap K V) : Nat := st.items.length

/-- Library `MakePermanent(key)`. -/
def MakePermanent (st : TimedMap K V) (k : K) : Bool × TimedMap K V :=
  match lookupKV st.items k with
  | none => (false, st)
  | some el =>
    if el.expiresAt = ElementPermanent then (true, st)
    else
      let mh :=
        if el.index ≥ 0 ∧ el.index < Int.ofNat st.expHeap.length then
          let r := hRemoveAt st.items st.expHeap el.index.toNat
          (r.2.1, r.2.2)
        else (st.items, st.expHeap)
      (true,
        { st with
          items := modifyKV mh.1 k (fun e => { e with expiresAt := ElementPermanent })
          expHeap := mh.2
          stats := { st.stats with permanent := st.stats.permanent + 1 } })

/-- Library `SetExpiry(key, expiresAt)`; `now` is `time.Now().UnixNano()`
read inside the call. -/
def SetExpiry (st : TimedMap K V) (k : K) (t : GoTime) (now : Int) :
    Bool × TimedMap K V :=
  match lookupKV st.items k with
  | none => (false, st)
  | some el =>
    if t.isZero then
      if el.expiresAt = ElementPermanent then (true, st)
      else
        let mh :=
          if el.index ≥ 0 ∧ el.index < Int.ofNat st.expHeap.length then
            let r := hRemoveAt st.items st.expHeap el.index.toNat
            (r.2.1, r.2.2)
          else (st.items, st.expHeap)
        (true,
          { st with
            items := modifyKV mh.1 k (fun e => { e with expiresAt := ElementPermanent })
            expHeap := mh.2
            stats := { st.stats with permanent := st.stats.permanent + 1 } })
    else
      let newExp := t.nano
      if newExp ≤ now then
        let mh :=
          if el.expiresAt ≠ ElementPermanent ∧ el.index ≥ 0 then
            let r := hRemoveAt st.items st.expHeap el.index.toNat
            (r.2.1, r.2.2)
          else (st.items, st.expHeap)
        (false,
          { st with
            items := eraseKV mh.1 k
            expHeap := mh.2
            stats := { st.stats with removed := st.stats.removed + 1 } })
      else if el.expiresAt = ElementPermanent then
        let m1 := modifyKV st.items k (fun e => { e with expiresAt := newExp })
        let p := hPush m1 st.expHeap k
        (true, { st with items := p.1, expHeap := p.2 })
      else
        let m1 := modifyKV st.items k (fun e => { e with expiresAt := newExp })
        let mh :=
          if el.index ≥ 0 ∧ el.index < Int.ofNat st.expHeap.length then
            hFix m1 st.expHeap el.index.toNat
          else (m1, st.expHeap)
        (true, { st with items := mh.1, expHeap := mh.2 })

/-- Library `Stats()`. -/
def Stats (st : TimedMap K V) : StatsView :=
  ⟨st.stats.added, st.stats.removed, st.stats.expired, st.stats.permanent,
    st.items.length⟩

end temap

namespace wpool

variable {K V : Type} [DecidableEq K] [Inhabited K]

/-- Worker-pool `SetTemporary(key, value, expiresAt)` (the wake-signal sent
to the cleaner after the update carries no modelled state). -/
def SetTemporary (st : TimedMap K V) (k : K) (v : V) (t : GoTime) :
    TimedMap K V :=
  let exp := t.nano
  match lookupKV st.items k with
  | some el =>
    -- el.Value = value
    let m1 := modifyKV st.items k (fun e => { e with value := v })
    if el.expiresAt ≠ ElementPermanent then
      -- el.ExpiresAt = exp; Fix at el.index if el.index >= 0, else Push
      let m2 := modifyKV m1 k (fun e => { e with expiresAt := exp })
      if el.index ≥ 0 then
        let f := hFix m2 st.expHeap el.index.toNat
        { st with items := f.1, expHeap := f.2 }
      else
        let p := hPush m2 st.expHeap k
        { st with items := p.1, expHeap := p.2 }
    else
      { st with items := m1 }
  | none =>
    let el : Elem V := { value := v, expiresAt := exp, index := 0 }
    let m1 := st.items ++ [(k, el)]
    if exp ≠ ElementPermanent then
      let p := hPush m1 st.expHeap k
      { st with
        items := p.1
        expHeap := p.2
        stats := { st.stats with added := st.stats.added + 1 } }
    else
      { st with
        items := m1
        stats := { st.stats with
                   added := st.stats.added + 1
                   permanent := st.stats.permanent + 1 } }

/-- Worker-pool `SetPermanent(key, value)`. -/
def SetPermanent (st : TimedMap K V) (k : K) (v : V) : TimedMap K V :=
  match lookupKV st.items k with
  | some el =>
    -- el.Value = value
    let m1 := modifyKV st.items k (fun e => { e with value := v })
    let mhp :=
      if el.expiresAt ≠ ElementPermanent then
        -- remove from heap if el.index >= 0, and count the transition
        let mh :=
          if el.index ≥ 0 then
            let r := hRemoveAt m1 st.expHeap el.index.toNat
            (r.2.1, r.2.2)
          else (m1, st.expHeap)
        (mh.1, mh.2, st.stats.permanent + 1)
      else (m1, st.expHeap, st.stats.permanent)
    -- el.ExpiresAt = ElementPermanent
    { st with
      items := modifyKV mhp.1 k (fun e => { e with expiresAt := ElementPermanent })
      expHeap := mhp.2.1
      stats := { st.stats with permanent := mhp.2.2 } }
  | none =>
    { st with
      items := st.items ++ [(k, ⟨v, ElementPermanent, 0⟩)]
      stats := { st.stats with
                 added := st.stats.added + 1
                 permanent := st.stats.permanent + 1 } }

/-- Worker-pool `SetWithTTL(key, value, ttl)`; `now` is `time.Now()` at the
call (never the zero `time.Time`). -/
def SetWithTTL (st : TimedMap K V) (k : K) (v : V) (ttl now : Int) :
    TimedMap K V :=
  if ttl ≤ 0 then SetPermanent st k v
  else SetTemporary st k v { nano := now + ttl, isZero := false }

/-- Worker-pool `SetExpiry(key, expiresAt)`; `now` is
`time.Now().UnixNano()` read inside the call (the wake signal carries no
modelled state). -/
def SetExpiry (st : TimedMap K V) (k : K) (t : GoTime) (now : Int) :
    Bool × TimedMap K V :=
  match lookupKV st.items k with
  | none => (false, st)
  | some el =>
    if t.isZero then
      let mhp :=
        if el.expiresAt ≠ ElementPermanent then
          let mh :=
            if el.index ≥ 0 then
              let r := hRemoveAt st.items st.expHeap el.index.toNat
              (r.2.1, r.2.2)
            else (st.items, st.expHeap)
          (mh.1, mh.2, st.stats.permanent + 1)
        else (st.items, st.expHeap, st.stats.permanent)
      (true,
        { st with
          items := modifyKV mhp.1 k (fun e => { e with expiresAt := ElementPermanent })
          expHeap := mhp.2.1
          stats := { st.stats with permanent := mhp.2.2 } })
    else
      let newExp := t.nano
      if newExp ≤ now then
        let mh :=
          if el.expiresAt ≠ ElementPermanent ∧ el.index ≥ 0 then
            let r := hRemoveAt st.items st.expHeap el.index.toNat
            (r.2.1, r.2.2)
          else (st.items, st.expHeap)
        (false,
          { st with
            items := eraseKV mh.1 k
            expHeap := mh.2
            stats := { st.stats with removed := st.stats.removed + 1 } })
      else if el.expiresAt = ElementPermanent then
        let m1 := modifyKV st.items k (fun e => { e with expiresAt := newExp })
        let p := hPush m1 st.expHeap k
        (true, { st with items := p.1, expHeap := p.2 })
      else
        let m1 := modifyKV st.items k (fun e => { e with expiresAt := newExp })
        let mh :=
          if el.index ≥ 0 then hFix m1 st.expHeap el.index.toNat
          else (m1, st.expHeap)
        (true, { st with items := mh.1, expHeap := mh.2 })

/-- Worker-pool `Get(key)`; the returned map is the receiver's state when
the method returns (its body performs no writes). -/
def Get (st : TimedMap K V) (k : K) :
    (Option V × Int × Bool) × TimedMap K V :=
  match lookupKV st.items k with
  | none => ((none, ElementDoesntExist, false), st)
  | some el => ((some el.value, el.expiresAt, true), st)

/-- Worker-pool `Remove(key)`: deletes from the map, then removes from the
heap when the entry was temporary with a non-negative index. -/
def Remove (st : TimedMap K V) (k : K) : TimedMap K V :=
  match lookupKV st.items k with
  | none => st
  | some el =>
    let m1 := eraseKV st.items k
    let mh :=
      if el.expiresAt ≠ ElementPermanent ∧ el.index ≥ 0 then
        let r := hRemoveAt m1 st.expHeap el.index.toNat
        (r.2.1, r.2.2)
      else (m1, st.expHeap)
    { st with
      items := mh.1
      expHeap := mh.2
      stats := { st.stats with removed := st.stats.removed + 1 } }

/-- Worker-pool `RemoveAll()`: fresh map, fresh heap, counters untouched. -/
def RemoveAll (st : TimedMap K V) : TimedMap K V :=
  { st with items := [], expHeap := [] }

/-- Worker-pool `Size()`. -/
def Size (st : TimedMap K V) : Nat := st.items.length

/-- Worker-pool `MakePermanent(key)`. -/
def MakePermanent (st : TimedMap K V) (k : K) : Bool × TimedMap K V :=
  match lookupKV st.items k with
  | none => (false, st)
  | some el =>
    let mhp :=
      if el.expiresAt ≠ ElementPermanent then
        let mh :=
          if el.index ≥ 0 then
            let r := hRemoveAt st.items st.expHeap el.index.toNat
            (r.2.1, r.2.2)
          else (st.items, st.expHeap)
        (mh.1, mh.2, st.stats.permanent + 1)
      else (st.items, st.expHeap, st.stats.permanent)
    (true,
      { st with
        items := modifyKV mhp.1 k (fun e => { e with expiresAt := ElementPermanent })
        expHeap := mhp.2.1
        stats := { st.stats with permanent := mhp.2.2 } })

/-- Worker-pool `Stats()`. -/
def Stats (st : TimedMap K V) : StatsView :=
  ⟨st.stats.added, st.stats.removed, st.stats.expired, st.stats.permanent,
    st.items.length⟩

/-- One drain pass of the cleaner goroutine (the critical section entered
when `wait <= 0`): repeatedly pop the heap root while its `ExpiresAt` is at
or before `now`, delete the popped key from the map, collect the popped
element, and count it as expired.  Each pop strictly shrinks the heap, so
the loop runs at most `expHeap.length` times; the counter argument of
`drainLoop` makes that bound explicit. -/
def drainLoop [Inhabited V] (cnt : Nat) (st : TimedMap K V) (now : Int) :
    List (K × Elem V) × TimedMap K V :=
  match cnt with
  | 0 => ([], st)
  | cnt + 1 =>
    match st.expHeap with
    | [] => ([], st)
    | _ :: _ =>
      if expOf st.items (hget st.expHeap 0) ≤ now then
        let p := hPopHeap st.items st.expHeap
        let el := (lookupKV p.2.1 p.1).getD ⟨default, 0, -1⟩
        let st1 : TimedMap K V :=
          { st with
            items := eraseKV p.2.1 p.1
            expHeap := p.2.2
            stats := { st.stats with expired := st.stats.expired + 1 } }
        let r := drainLoop cnt st1 now
        ((p.1, el) :: r.1, r.2)
      else ([], st)

/-- The expired entries popped (in order) and the state left behind by one
drain pass of `startCleaner`. -/
def drainExpired [Inhabited V] (st : TimedMap K V) (now : Int) :
    List (K × Elem V) × TimedMap K V :=
  drainLoop st.expHeap.length st now

/-- The dispatch queue (`expireQueue chan *element`): its buffered length
and capacity (1024 in `New`). -/
structure DispatchQ where
  queued : Nat
  cap : Nat
deriving Repr, DecidableEq

/-- Sending the drained entries to the worker pool: for each entry, the
`select` either places it in the buffered queue (when there is space) or
falls back to `go t.onExpire(el.Key, el.Value)`.  `cbNil` records whether
the map was constructed with a nil callback; calling a nil function value
panics, modelled by `Except.error ()`.  (The workers themselves guard with
`if t.onExpire != nil` and never panic.) -/
def sendExpired {K V : Type} (cbNil : Bool) (q : DispatchQ)
    (expired : List (K × Elem V)) : Except Unit DispatchQ :=
  match expired with
  | [] => .ok q
  | _ :: rest =>
    if q.queued < q.cap then
      sendExpired cbNil { q with queued := q.queued + 1 } rest
    else if cbNil then .error ()
    else sendExpired cbNil q rest

end wpool

/-- One public operation of the worker-pool map (the operations the cleaner
and callers interleave). -/
inductive Op (K V : Type) where
  | setPermanent (k : K) (v : V)
  | setTemporary (k : K) (v : V) (t : GoTime)
  | setWithTTL (k : K) (v : V) (ttl now : Int)
  | setExpiry (k : K) (t : GoTime) (now : Int)
  | makePermanent (k : K)
  | remove (k : K)
  | removeAll
  | get (k : K)
  | drain (now : Int)

/-- Apply one operation to the worker-pool map's state. -/
def applyOp {K V : Type} [DecidableEq K] [Inhabited K] [Inhabited V]
    (st : TimedMap K V) : Op K V → TimedMap K V
  | .setPermanent k v => wpool.SetPermanent st k v
  | .setTemporary k v t => wpool.SetTemporary st k v t
  | .setWithTTL k v ttl now => wpool.SetWithTTL st k v ttl now
  | .setExpiry k t now => (wpool.SetExpiry st k t now).2
  | .makePermanent k => (wpool.MakePermanent st k).2
  | .remove k => wpool.Remove st k
  | .removeAll => wpool.RemoveAll st
  | .get k => (wpool.Get st k).2
  | .drain now => (wpool.drainExpired st now).2

section PureHeap

variable {K : Type} [Inhabited K] (ε : K → Int)

/-- The heap list after `Swap(i, j)` (positions only; index bookkeeping
lives in `hSwap`). -/
def pswap (h : List K) (i j : Nat) : List K :=
  (h.set i (hget h j)).set j (hget h i)

/-- `Less(i, j)` over a fixed expiry assignment `ε`. -/
def pless (h : List K) (i j : Nat) : Bool :=
  ε (hget h i) < ε (hget h j)

/-- The heap list after `up(h, j)` over a fixed `ε` (iteration counter as
in `hUpF`). -/
def pupF (fuel : Nat) (h : List K) (j : Nat) : List K :=
  match fuel with
  | 0 => h
  | fuel + 1 =>
    let i := (j - 1) / 2
    if i = j ∨ ¬ pless ε h j i then h
    else pupF fuel (pswap h i j) i

/-- The heap list after `up(h, j)` over a fixed `ε`. -/
def pup (h : List K) (j : Nat) : List K :=
  pupF ε j h j

/-- The heap list and final position after `down(h, i, n)` over a fixed
`ε` (iteration counter as in `hDownAuxF`). -/
def pdownAuxF (fuel : Nat) (h : List K) (i n : Nat) : List K × Nat :=
  match fuel with
  | 0 => (h, i)
  | fuel + 1 =>
    let j1 := 2 * i + 1
    if j1 ≥ n then (h, i)
    else
      let j := if j1 + 1 < n ∧ pless ε h (j1 + 1) j1 then j1 + 1 else j1
      if ¬ pless ε h j i then (h, i)
      else pdownAuxF fuel (pswap h i j) j n

/-- The heap list and final position after `down(h, i, n)` over a fixed
`ε`. -/
def pdownAux (h : List K) (i n : Nat) : List K × Nat :=
  pdownAuxF ε (n - i) h i n

/-- The heap list after `heap.Push` of `k` over a fixed `ε`. -/
def ppush (h : List K) (k : K) : List K :=
  pup ε (h ++ [k]) h.length

/-- The popped key and remaining heap list after `heap.Pop` over a fixed
`ε`. -/
def ppop (h : List K) : K × List K :=
  let n := h.length - 1
  let d := (pdownAux ε (pswap h 0 n) 0 n).1
  (hget d n, d.take n)

/-- The removed key and remaining heap list after `heap.Remove(h, i)` over
a fixed `ε`. -/
def premoveAt (h : List K) (i : Nat) : K × List K :=
  let n := h.length - 1
  if i ≠ n then
    let d := pdownAux ε (pswap h i n) i n
    let u := if i < d.2 then d.1 else pup ε d.1 i
    (hget u n, u.take n)
  else
    (hget h n, h.take n)

/-- The heap list after `heap.Fix(h, i)` over a fixed `ε`. -/
def pfix (h : List K) (i : Nat) : List K :=
  let d := pdownAux ε h i h.length
  if i < d.2 then d.1 else pup ε d.1 i

/-- The min-heap ordering property on the first `n` slots: every child at
`c < n` is at least its parent. -/
def IsHeapUpTo (h : List K) (n : Nat) : Prop :=
  ∀ c, c < n → 0 < c → ε (hget h ((c - 1) / 2)) ≤ ε (hget h c)

end PureHeap

section Invariants

variable {K V : Type} [DecidableEq K] [Inhabited K]

/-- The heap/store consistency invariant asserted by the specification: an
entry is in the expiry heap iff its `ExpiresAt` is not the permanent
sentinel; every heap slot's element records that slot in its `index`
field; and the heap root has the minimum `ExpiresAt` among temporary
entries. -/
def heapStoreConsistent (st : TimedMap K V) : Prop :=
  (∀ p ∈ st.items, (p.2.expiresAt ≠ ElementPermanent ↔ p.1 ∈ st.expHeap)) ∧
  (∀ i, i < st.expHeap.length →
    (lookupKV st.items (hget st.expHeap i)).map Elem.index = some (Int.ofNat i)) ∧
  (∀ p ∈ st.items, p.2.expiresAt ≠ ElementPermanent →
    expOf st.items (hget st.expHeap 0) ≤ p.2.expiresAt)

/-- Well-formedness of a map state: distinct keys in the map and in the
heap, every heap slot holding a temporary entry of the map whose `index`
field is that slot, and every temporary entry of the map present in the
heap. -/
def WF (st : TimedMap K V) : Prop :=
  (st.items.map Prod.fst).Nodup ∧
  st.expHeap.Nodup ∧
  (∀ i, i < st.expHeap.length →
    (lookupKV st.items (hget st.expHeap i)).map Elem.index = some (Int.ofNat i) ∧
    (lookupKV st.items (hget st.expHeap i)).map Elem.expiresAt ≠ some ElementPermanent) ∧
  (∀ p ∈ st.items, p.2.expiresAt ≠ ElementPermanent → p.1 ∈ st.expHeap)

/-- The heap ordering property of a map state. -/
def HeapOrdered (st : TimedMap K V) : Prop :=
  IsHeapUpTo (expOf st.items) st.expHeap st.expHeap.length

instance heapStoreConsistentDecidable (st : TimedMap K V) [DecidableEq V] :
    Decidable (heapStoreConsistent st) := by
  unfold heapStoreConsistent
  exact inferInstance

instance wfDecidable (st : TimedMap K V) : Decidable (WF st) := by
  unfold WF
  exact inferInstance

instance heapOrderedDecidable (st : TimedMap K V) : Decidable (HeapOrdered st) := by
  unfold HeapOrdered IsHeapUpTo
  exact inferInstance

end Invariants

section BasicLemmas

variable {K V : Type} [DecidableEq K] [Inhabited K]

theorem setWithTTL_temap_le (st : TimedMap K V) (k : K) (v : V) (ttl now : Int)
    (h : ttl ≤ 0) : temap.SetWithTTL st k v ttl now = temap.SetPermanent st k v := by
  simp [temap.SetWithTTL, h]

theorem setWithTTL_temap_pos (st : TimedMap K V) (k : K) (v : V) (ttl now : Int)
    (h : 0 < ttl) :
    temap.SetWithTTL st k v ttl now = temap.SetTemporary st k v ⟨now + ttl, false⟩ := by
  simp [temap.SetWithTTL, not_le.mpr h]

theorem setWithTTL_wpool_le (st : TimedMap K V) (k : K) (v : V) (ttl now : Int)
    (h : ttl ≤ 0) : wpool.SetWithTTL st k v ttl now = wpool.SetPermanent st k v := by
  simp [wpool.SetWithTTL, h]

theorem setWithTTL_wpool_pos (st : TimedMap K V) (k : K) (v : V) (ttl now : Int)
    (h : 0 < ttl) :
    wpool.SetWithTTL st k v ttl now = wpool.SetTemporary st k v ⟨now + ttl, false⟩ := by
  simp [wpool.SetWithTTL, not_le.mpr h]

end BasicLemmas

/-- C7: `setWithTTL(key, value, ttl)` with `ttl ≤ 0` produces exactly the
state `setPermanent(key, value)` produces (in both implementations), and
with `ttl > 0` it produces exactly the state
`setTemporary(key, value, now + ttl)` produces. -/
theorem C7_setWithTTL_delegation {K V : Type} [DecidableEq K] [Inhabited K]
    (st : TimedMap K V) (k : K) (v : V) (ttl now : Int) :
    (ttl ≤ 0 →
      temap.SetWithTTL st k v ttl now = temap.SetPermanent st k v ∧
      wpool.SetWithTTL st k v ttl now = wpool.SetPermanent st k v) ∧
    (0 < ttl →
      temap.SetWithTTL st k v ttl now = temap.SetTemporary st k v ⟨now + ttl, false⟩ ∧
      wpool.SetWithTTL st k v ttl now = wpool.SetTemporary st k v ⟨now + ttl, false⟩) :=
  ⟨fun h => ⟨setWithTTL_temap_le st k v ttl now h, setWithTTL_wpool_le st k v ttl now h⟩,
   fun h => ⟨setWithTTL_temap_pos st k v ttl now h, setWithTTL_wpool_pos st k v ttl now h⟩⟩

/-- C7 witness: concrete instances of the delegation, at `ttl = 0`,
`ttl = -1` and `ttl = 5`. -/
theorem C7_setWithTTL_delegation_witness :
    (temap.SetWithTTL (emptyTM Nat Nat) 1 2 0 100 = temap.SetPermanent (emptyTM Nat Nat) 1 2) ∧
    (wpool.SetWithTTL (emptyTM Nat Nat) 1 2 (-1) 100 = wpool.SetPermanent (emptyTM Nat Nat) 1 2) ∧
    (wpool.SetWithTTL (emptyTM Nat Nat) 1 2 5 100 =
      wpool.SetTemporary (emptyTM Nat Nat) 1 2 ⟨105, false⟩) :=
  ⟨((C7_setWithTTL_delegation (emptyTM Nat Nat) 1 2 0 100).1 (by decide)).1,
   ((C7_setWithTTL_delegation (emptyTM Nat Nat) 1 2 (-1) 100).1 (by decide)).2,
   ((C7_setWithTTL_delegation (emptyTM Nat Nat) 1 2 5 100).2 (by decide)).2⟩

/-- C8: `Get(key)` mutates nothing (the state after the call is the state
before it), returns `(value, expiresAt, true)` for a present key — with
`found = true` even when the entry's expiry is at or before any given
current time — and `(nil, ElementDoesntExist, false)` for an absent key
(both implementations). -/
theorem C8_get_readonly {K V : Type} [DecidableEq K] [Inhabited K]
    (st : TimedMap K V) (k : K) (now : Int) :
    ((temap.Get st k).2 = st ∧ (wpool.Get st k).2 = st) ∧
    (∀ el, lookupKV st.items k = some el →
      (temap.Get st k).1 = (some el.value, el.expiresAt, true) ∧
      (wpool.Get st k).1 = (some el.value, el.expiresAt, true)) ∧
    (lookupKV st.items k = none →
      (temap.Get st k).1 = (none, ElementDoesntExist, false) ∧
      (wpool.Get st k).1 = (none, ElementDoesntExist, false)) ∧
    (∀ el, lookupKV st.items k = some el → el.expiresAt ≤ now →
      ((temap.Get st k).1.2.2 = true ∧ (wpool.Get st k).1.2.2 = true)) := by
  refine ⟨?_, ?_, ?_, ?_⟩
  · cases hl : lookupKV st.items k <;> simp [temap.Get, wpool.Get, hl]
  · intro el hl
    simp [temap.Get, wpool.Get, hl]
  · intro hl
    simp [temap.Get, wpool.Get, hl]
  · intro el hl _
    simp [temap.Get, wpool.Get, hl]

/-- C8 witness: an entry whose expiry (5) is before the current time (100)
is still returned with `found = true`, and `Get` leaves the concrete state
unchanged. -/
theorem C8_get_readonly_witness :
    ((temap.Get (⟨[(1, ⟨7, 5, 0⟩)], [1], ⟨1, 0, 0, 0⟩⟩ : TimedMap Nat Nat) 1).2 =
      (⟨[(1, ⟨7, 5, 0⟩)], [1], ⟨1, 0, 0, 0⟩⟩ : TimedMap Nat Nat)) ∧
    ((temap.Get (⟨[(1, ⟨7, 5, 0⟩)], [1], ⟨1, 0, 0, 0⟩⟩ : TimedMap Nat Nat) 1).1.2.2 = true ∧
     (wpool.Get (⟨[(1, ⟨7, 5, 0⟩)], [1], ⟨1, 0, 0, 0⟩⟩ : TimedMap Nat Nat) 1).1.2.2 = true) :=
  ⟨(C8_get_readonly (⟨[(1, ⟨7, 5, 0⟩)], [1], ⟨1, 0, 0, 0⟩⟩ : TimedMap Nat Nat) 1 100).1.1,
   (C8_get_readonly (⟨[(1, ⟨7, 5, 0⟩)], [1], ⟨1, 0, 0, 0⟩⟩ : TimedMap Nat Nat) 1 100).2.2.2
     ⟨7, 5, 0⟩ (by decide) (by decide)⟩

/-- C10: `RemoveAll()` leaves every cumulative counter (added, removed,
expired, permanent) unchanged while `Stats()`'s "current" entry and
`Size()` drop to zero (both implementations). -/
theorem C10_removeAll_counters_frame {K V : Type} [DecidableEq K] [Inhabited K]
    (st : TimedMap K V) :
    ((temap.RemoveAll st).stats = st.stats ∧
     temap.Stats (temap.RemoveAll st) =
       ⟨st.stats.added, st.stats.removed, st.stats.expired, st.stats.permanent, 0⟩ ∧
     temap.Size (temap.RemoveAll st) = 0) ∧
    ((wpool.RemoveAll st).stats = st.stats ∧
     wpool.Stats (wpool.RemoveAll st) =
       ⟨st.stats.added, st.stats.removed, st.stats.expired, st.stats.permanent, 0⟩ ∧
     wpool.Size (wpool.RemoveAll st) = 0) := by
  simp [temap.RemoveAll, temap.Stats, temap.Size,
    wpool.RemoveAll, wpool.Stats, wpool.Size]

/-- C1: heap/store consistency fails on the library implementation — after
`SetTemporary(k, v, t)` the invariant holds, but the very next
`SetPermanent(k, v2)` leaves the entry inside the expiry heap while its
`ExpiresAt` is the permanent sentinel (`SetPermanent`'s update path never
removes the entry from the heap), so "in the heap iff not permanent" is
violated and the permanent counter is not incremented either. -/
theorem C1_heap_store_consistency_broken :
    heapStoreConsistent (temap.SetTemporary (emptyTM Nat Nat) 1 10 ⟨5, false⟩) ∧
    ¬ heapStoreConsistent
        (temap.SetPermanent (temap.SetTemporary (emptyTM Nat Nat) 1 10 ⟨5, false⟩) 1 20) ∧
    (lookupKV (temap.SetPermanent
        (temap.SetTemporary (emptyTM Nat Nat) 1 10 ⟨5, false⟩) 1 20).items 1).map
      Elem.expiresAt = some ElementPermanent ∧
    1 ∈ (temap.SetPermanent
        (temap.SetTemporary (emptyTM Nat Nat) 1 10 ⟨5, false⟩) 1 20).expHeap ∧
    (temap.SetPermanent
        (temap.SetTemporary (emptyTM Nat Nat) 1 10 ⟨5, false⟩) 1 20).stats.permanent = 0 := by
  decide

/-- C2 counterexample: on the worker-pool implementation, `SetTemporary` on
an existing permanent entry does not transition it to temporary and does
not push it into the heap — after `SetPermanent(1, 10)` and
`SetTemporary(1, 20, t=5)` the entry's `ExpiresAt` is still the permanent
sentinel (not 5) and the heap is still empty. -/
theorem C2_permanent_entry_not_converted :
    (lookupKV (wpool.SetTemporary (wpool.SetPermanent (emptyTM Nat Nat) 1 10) 1 20
        ⟨5, false⟩).items 1).map Elem.expiresAt ≠ some (5 : Int) ∧
    (lookupKV (wpool.SetTemporary (wpool.SetPermanent (emptyTM Nat Nat) 1 10) 1 20
        ⟨5, false⟩).items 1).map Elem.expiresAt = some ElementPermanent ∧
    1 ∉ (wpool.SetTemporary (wpool.SetPermanent (emptyTM Nat Nat) 1 10) 1 20
        ⟨5, false⟩).expHeap := by
  decide

/-- C5: the drain's overflow fallback `go t.onExpire(el.Key, el.Value)`
does not guard against a nil callback — with a nil callback and a full
dispatch queue (1024 of 1024 slots used), handing one drained entry to
dispatch calls a nil function value, i.e. panics; with one slot free the
same entry is queued without touching the callback. -/
theorem C5_nil_callback_overflow_panics :
    wpool.sendExpired true ⟨1024, 1024⟩ [(1, (⟨5, 3, -1⟩ : Elem Nat))] = Except.error () ∧
    wpool.sendExpired true ⟨1023, 1024⟩ [(1, (⟨5, 3, -1⟩ : Elem Nat))] =
      Except.ok ⟨1024, 1024⟩ := by
  exact ⟨rfl, rfl⟩

section PermanentMono

variable {K V : Type} [DecidableEq K] [Inhabited K]

theorem setTemporary_permanent_mono (st : TimedMap K V) (k : K) (v : V) (t : GoTime) :
    st.stats.permanent ≤ (wpool.SetTemporary st k v t).stats.permanent := by
  unfold wpool.SetTemporary
  cases hl : lookupKV st.items k <;> simp only [hl] <;> repeat' split
  all_goals simp

theorem setPermanent_permanent_mono (st : TimedMap K V) (k : K) (v : V) :
    st.stats.permanent ≤ (wpool.SetPermanent st k v).stats.permanent := by
  unfold wpool.SetPermanent
  cases hl : lookupKV st.items k <;> simp only [hl] <;> repeat' split
  all_goals simp

theorem setWithTTL_permanent_mono (st : TimedMap K V) (k : K) (v : V) (ttl now : Int) :
    st.stats.permanent ≤ (wpool.SetWithTTL st k v ttl now).stats.permanent := by
  unfold wpool.SetWithTTL
  split
  · exact setPermanent_permanent_mono st k v
  · exact setTemporary_permanent_mono st k v _

theorem setExpiry_permanent_mono (st : TimedMap K V) (k : K) (t : GoTime) (now : Int) :
    st.stats.permanent ≤ (wpool.SetExpiry st k t now).2.stats.permanent := by
  unfold wpool.SetExpiry
  cases hl : lookupKV st.items k <;> simp only [hl] <;> repeat' split
  all_goals simp

theorem makePermanent_permanent_mono (st : TimedMap K V) (k : K) :
    st.stats.permanent ≤ (wpool.MakePermanent st k).2.stats.permanent := by
  unfold wpool.MakePermanent
  cases hl : lookupKV st.items k <;> simp only [hl] <;> repeat' split
  all_goals simp

theorem remove_permanent_mono (st : TimedMap K V) (k : K) :
    st.stats.permanent ≤ (wpool.Remove st k).stats.permanent := by
  unfold wpool.Remove
  cases hl : lookupKV st.items k <;> simp [hl]

omit [Inhabited K] in
theorem get_state_id (st : TimedMap K V) (k : K) : (wpool.Get st k).2 = st := by
  unfold wpool.Get
  cases hl : lookupKV st.items k <;> simp [hl]

theorem drainLoop_stats_frame [Inhabited V] (cnt : Nat) (st : TimedMap K V) (now : Int) :
    (wpool.drainLoop cnt st now).2.stats.permanent = st.stats.permanent ∧
    (wpool.drainLoop cnt st now).2.stats.added = st.stats.added ∧
    (wpool.drainLoop cnt st now).2.stats.removed = st.stats.removed := by
  induction cnt generalizing st with
  | zero => simp [wpool.drainLoop]
  | succ cnt ih =>
    unfold wpool.drainLoop
    cases hh : st.expHeap with
    | nil => simp
    | cons a tl =>
      split
      · simp_all
      · split
        · have h3 := ih
            { items := eraseKV (hPopHeap st.items (a :: tl)).2.1 (hPopHeap st.items (a :: tl)).1
              expHeap := (hPopHeap st.items (a :: tl)).2.2
              stats := { added := st.stats.added, removed := st.stats.removed,
                         expired := st.stats.expired + 1, permanent := st.stats.permanent } }
          simpa using h3
        · simp

end PermanentMono

/-- C9: the "permanent" counter is monotone non-decreasing across every
finite sequence of operations (sets, setExpiry, makePermanent, remove,
removeAll, get, drain passes of the cleaner): no operation ever decrements
it, so `stats()["permanent"]` counts cumulative transitions into the
permanent state, not the number of currently permanent entries. -/
theorem C9_permanent_counter_monotone {K V : Type} [DecidableEq K] [Inhabited K]
    [Inhabited V] (ops : List (Op K V)) (st : TimedMap K V) :
    st.stats.permanent ≤ (ops.foldl applyOp st).stats.permanent := by
  induction ops generalizing st with
  | nil => exact le_refl _
  | cons op rest ih =>
    refine le_trans ?_ (ih (applyOp st op))
    cases op with
    | setPermanent k v => exact setPermanent_permanent_mono st k v
    | setTemporary k v t => exact setTemporary_permanent_mono st k v t
    | setWithTTL k v ttl now => exact setWithTTL_permanent_mono st k v ttl now
    | setExpiry k t now => exact setExpiry_permanent_mono st k t now
    | makePermanent k => exact makePermanent_permanent_mono st k
    | remove k => exact remove_permanent_mono st k
    | removeAll => exact le_refl _
    | get k => exact le_of_eq (by rw [applyOp, get_state_id])
    | drain now => exact le_of_eq ((drainLoop_stats_frame _ st now).1).symm

section AssocLemmas

variable {K V : Type} [DecidableEq K]

theorem lookupKV_modify (m : List (K × Elem V)) (k : K) (f : Elem V → Elem V)
    (x : K) :
    lookupKV (modifyKV m k f) x =
      if x = k then (lookupKV m x).map f else lookupKV m x := by
  induction m with
  | nil => simp [lookupKV, modifyKV]
  | cons p rest ih =>
    obtain ⟨k', e⟩ := p
    rw [modifyKV] at ih ⊢
    simp only [List.map_cons, lookupKV]
    by_cases h2 : k' = x
    · subst h2
      by_cases h1 : k' = k <;> simp [h1, lookupKV]
    · simp [h2, ih]

theorem lookupKV_erase (m : List (K × Elem V)) (k x : K) :
    lookupKV (eraseKV m k) x = if x = k then none else lookupKV m x := by
  induction m with
  | nil => simp [lookupKV, eraseKV]
  | cons p rest ih =>
    obtain ⟨k', e⟩ := p
    rw [eraseKV] at ih ⊢
    simp only [ne_eq, decide_not] at ih ⊢
    by_cases h1 : k' = k
    · subst h1
      rw [List.filter_cons_of_neg (by simp)]
      rw [ih]
      by_cases h2 : x = k'
      · simp [h2]
      · rw [if_neg h2, if_neg h2, lookupKV, if_neg (fun h => h2 h.symm)]
    · rw [List.filter_cons_of_pos (by simp [h1])]
      rw [lookupKV, lookupKV]
      by_cases h2 : k' = x
      · subst h2
        simp [h1]
      · simp [h2, ih]

theorem modifyKV_map_fst (m : List (K × Elem V)) (k : K) (f : Elem V → Elem V) :
    (modifyKV m k f).map Prod.fst = m.map Prod.fst := by
  simp [modifyKV]

/-- Two `items` maps with the same keys in the same order that agree on
the value and expiry of every key (the heap's sift operations only rewrite
`index` fields). -/
def sameObs (m1 m2 : List (K × Elem V)) : Prop :=
  m1.map Prod.fst = m2.map Prod.fst ∧
  ∀ x, (lookupKV m1 x).map (fun e => (e.value, e.expiresAt)) =
       (lookupKV m2 x).map (fun e => (e.value, e.expiresAt))

theorem sameObs_refl (m : List (K × Elem V)) : sameObs m m := ⟨rfl, fun _ => rfl⟩

theorem sameObs_trans {m1 m2 m3 : List (K × Elem V)}
    (h1 : sameObs m1 m2) (h2 : sameObs m2 m3) : sameObs m1 m3 :=
  ⟨h1.1.trans h2.1, fun x => (h1.2 x).trans (h2.2 x)⟩

theorem sameObs_setIdx (m : List (K × Elem V)) (k : K) (i : Int) :
    sameObs (setIdx m k i) m := by
  refine ⟨modifyKV_map_fst m k _, ?_⟩
  intro x
  rw [setIdx, lookupKV_modify]
  by_cases hx : x = k
  · subst hx
    simp only [if_pos rfl]
    cases lookupKV m x <;> simp
  · simp [hx]

theorem sameObs_keysEq {m1 m2 : List (K × Elem V)} (h : sameObs m1 m2) :
    m1.map Prod.fst = m2.map Prod.fst := h.1

theorem sameObs_lookup {m1 m2 : List (K × Elem V)} (h : sameObs m1 m2) (x : K) :
    (lookupKV m1 x).map (fun e => (e.value, e.expiresAt)) =
    (lookupKV m2 x).map (fun e => (e.value, e.expiresAt)) := h.2 x

theorem sameObs_expOf {m1 m2 : List (K × Elem V)} (h : sameObs m1 m2) :
    expOf m1 = expOf m2 := by
  funext x
  have hx := h.2 x
  rw [expOf, expOf]
  cases h1 : lookupKV m1 x <;> cases h2 : lookupKV m2 x <;>
    rw [h1, h2] at hx <;> simp_all

end AssocLemmas

section SimLemmas

variable {K V : Type} [DecidableEq K] [Inhabited K]

theorem hSwap_heap (m : List (K × Elem V)) (h : List K) (i j : Nat) :
    (hSwap m h i j).2 = pswap h i j := rfl

theorem hSwap_sameObs (m : List (K × Elem V)) (h : List K) (i j : Nat) :
    sameObs (hSwap m h i j).1 m :=
  sameObs_trans (sameObs_setIdx _ _ _) (sameObs_setIdx _ _ _)

theorem hLess_pless (m : List (K × Elem V)) (h : List K) (i j : Nat) :
    hLess m h i j = pless (expOf m) h i j := rfl

theorem hUpF_sim (f : Nat) (m : List (K × Elem V)) (h : List K) (j : Nat) :
    (hUpF f m h j).2 = pupF (expOf m) f h j ∧ sameObs (hUpF f m h j).1 m := by
  induction f generalizing m h j with
  | zero => exact ⟨rfl, sameObs_refl m⟩
  | succ f ih =>
    rw [hUpF, pupF]
    by_cases hc : (j - 1) / 2 = j ∨ ¬ hLess m h j ((j - 1) / 2)
    · rw [if_pos hc, if_pos (by rwa [← hLess_pless])]
      exact ⟨rfl, sameObs_refl m⟩
    · rw [if_neg hc, if_neg (by rwa [← hLess_pless])]
      have hobs := hSwap_sameObs m h ((j - 1) / 2) j
      have hε := sameObs_expOf hobs
      obtain ⟨ih1, ih2⟩ := ih (hSwap m h ((j - 1) / 2) j).1
        (hSwap m h ((j - 1) / 2) j).2 ((j - 1) / 2)
      refine ⟨?_, sameObs_trans ih2 hobs⟩
      rw [ih1, hε, hSwap_heap]

theorem hDownAuxF_sim (f : Nat) (m : List (K × Elem V)) (h : List K) (i n : Nat) :
    (hDownAuxF f m h i n).2.1 = (pdownAuxF (expOf m) f h i n).1 ∧
    (hDownAuxF f m h i n).2.2 = (pdownAuxF (expOf m) f h i n).2 ∧
    sameObs (hDownAuxF f m h i n).1 m := by
  induction f generalizing m h i with
  | zero => exact ⟨rfl, rfl, sameObs_refl m⟩
  | succ f ih =>
    rw [hDownAuxF, pdownAuxF]
    by_cases h1 : 2 * i + 1 ≥ n
    · rw [if_pos h1, if_pos h1]
      exact ⟨rfl, rfl, sameObs_refl m⟩
    · rw [if_neg h1, if_neg h1]
      have hjj : (if 2 * i + 1 + 1 < n ∧ hLess m h (2 * i + 1 + 1) (2 * i + 1)
          then 2 * i + 1 + 1 else 2 * i + 1) =
          (if 2 * i + 1 + 1 < n ∧ pless (expOf m) h (2 * i + 1 + 1) (2 * i + 1)
          then 2 * i + 1 + 1 else 2 * i + 1) := rfl
      set j := if 2 * i + 1 + 1 < n ∧ hLess m h (2 * i + 1 + 1) (2 * i + 1)
          then 2 * i + 1 + 1 else 2 * i + 1 with hj
      rw [← hjj]
      by_cases h2 : ¬ hLess m h j i
      · rw [if_pos h2, if_pos (by rwa [← hLess_pless])]
        exact ⟨rfl, rfl, sameObs_refl m⟩
      · rw [if_neg h2, if_neg (by rwa [← hLess_pless])]
        have hobs := hSwap_sameObs m h i j
        have hε := sameObs_expOf hobs
        obtain ⟨ih1, ih2, ih3⟩ := ih (hSwap m h i j).1 (hSwap m h i j).2 j
        refine ⟨?_, ?_, sameObs_trans ih3 hobs⟩
        · rw [ih1, hε, hSwap_heap]
        · rw [ih2, hε, hSwap_heap]

theorem hPush_sim (m : List (K × Elem V)) (h : List K) (k : K) :
    (hPush m h k).2 = ppush (expOf m) h k ∧ sameObs (hPush m h k).1 m := by
  rw [hPush, ppush, hUp, pup]
  have hobs := sameObs_setIdx m k (Int.ofNat h.length)
  have hε := sameObs_expOf hobs
  obtain ⟨h1, h2⟩ := hUpF_sim h.length (setIdx m k (Int.ofNat h.length)) (h ++ [k]) h.length
  exact ⟨by rw [h1, hε], sameObs_trans h2 hobs⟩

theorem hPopHeap_sim (m : List (K × Elem V)) (h : List K) :
    (hPopHeap m h).1 = (ppop (expOf m) h).1 ∧
    (hPopHeap m h).2.2 = (ppop (expOf m) h).2 ∧
    sameObs (hPopHeap m h).2.1 m := by
  have hobs := hSwap_sameObs m h 0 (h.length - 1)
  have hε := sameObs_expOf hobs
  obtain ⟨h1, h2, h3⟩ := hDownAuxF_sim (h.length - 1 - 0) (hSwap m h 0 (h.length - 1)).1
    (hSwap m h 0 (h.length - 1)).2 0 (h.length - 1)
  rw [hε] at h1 h2
  refine ⟨?_, ?_, ?_⟩
  · exact congrArg (fun l => hget l (h.length - 1)) h1
  · exact congrArg (fun l => l.take (h.length - 1)) h1
  · exact sameObs_trans (sameObs_setIdx _ _ _) (sameObs_trans h3 hobs)

theorem hFix_sim (m : List (K × Elem V)) (h : List K) (i : Nat) :
    (hFix m h i).2 = pfix (expOf m) h i ∧ sameObs (hFix m h i).1 m := by
  obtain ⟨h1, h2, h3⟩ := hDownAuxF_sim (h.length - i) m h i h.length
  unfold hFix pfix hDown hDownAux pdownAux
  dsimp only
  by_cases hmv : i < (pdownAuxF (expOf m) (h.length - i) h i h.length).2
  · rw [if_pos (by rw [h2]; simpa using hmv), if_pos hmv]
    exact ⟨h1, h3⟩
  · rw [if_neg (by rw [h2]; simpa using hmv), if_neg hmv]
    rw [hUp, pup]
    obtain ⟨u1, u2⟩ := hUpF_sim i (hDownAuxF (h.length - i) m h i h.length).1
      (hDownAuxF (h.length - i) m h i h.length).2.1 i
    have hε2 := sameObs_expOf h3
    conv at u1 => rhs; rw [hε2, h1]
    exact ⟨u1, sameObs_trans u2 h3⟩

theorem hRemoveAt_sim (m : List (K × Elem V)) (h : List K) (i : Nat) :
    (hRemoveAt m h i).1 = (premoveAt (expOf m) h i).1 ∧
    (hRemoveAt m h i).2.2 = (premoveAt (expOf m) h i).2 ∧
    sameObs (hRemoveAt m h i).2.1 m := by
  rw [hRemoveAt, premoveAt]
  by_cases hin : i ≠ h.length - 1
  · rw [if_pos hin, if_pos hin]
    have hobs := hSwap_sameObs m h i (h.length - 1)
    have hε := sameObs_expOf hobs
    obtain ⟨h1, h2, h3⟩ := hDownAuxF_sim (h.length - 1 - i) (hSwap m h i (h.length - 1)).1
      (hSwap m h i (h.length - 1)).2 i (h.length - 1)
    rw [hε] at h1 h2
    unfold hDown hDownAux pdownAux
    dsimp only
    by_cases hmv : i < (pdownAuxF (expOf m) (h.length - 1 - i) (pswap h i (h.length - 1))
        i (h.length - 1)).2
    · rw [if_pos (by rw [h2]; simpa using hmv), if_pos hmv]
      refine ⟨congrArg (fun l => hget l (h.length - 1)) h1,
        congrArg (fun l => l.take (h.length - 1)) h1, ?_⟩
      exact sameObs_trans (sameObs_setIdx _ _ _) (sameObs_trans h3 hobs)
    · rw [if_neg (by rw [h2]; simpa using hmv), if_neg hmv]
      rw [hUp, pup]
      obtain ⟨u1, u2⟩ := hUpF_sim i (hDownAuxF (h.length - 1 - i) (hSwap m h i (h.length - 1)).1
        (hSwap m h i (h.length - 1)).2 i (h.length - 1)).1
        (hDownAuxF (h.length - 1 - i) (hSwap m h i (h.length - 1)).1
          (hSwap m h i (h.length - 1)).2 i (h.length - 1)).2.1 i
      have hε2 := sameObs_expOf (sameObs_trans h3 hobs)
      conv at u1 => rhs; rw [hε2, h1]
      refine ⟨congrArg (fun l => hget l (h.length - 1)) u1,
        congrArg (fun l => l.take (h.length - 1)) u1, ?_⟩
      exact sameObs_trans (sameObs_setIdx _ _ _)
        (sameObs_trans u2 (sameObs_trans h3 hobs))
  · rw [if_neg hin, if_neg hin]
    exact ⟨rfl, rfl, sameObs_setIdx _ _ _⟩

end SimLemmas

section PureLengths

variable {K : Type} [Inhabited K] (ε : K → Int)

theorem pswap_length (h : List K) (i j : Nat) : (pswap h i j).length = h.length := by
  simp [pswap]

theorem pupF_length (f : Nat) (h : List K) (j : Nat) :
    (pupF ε f h j).length = h.length := by
  induction f generalizing h j with
  | zero => rfl
  | succ f ih =>
    rw [pupF]
    split
    · rfl
    · rw [ih, pswap_length]

theorem pdownAuxF_length (f : Nat) (h : List K) (i n : Nat) :
    ((pdownAuxF ε f h i n).1).length = h.length := by
  induction f generalizing h i with
  | zero => rfl
  | succ f ih =>
    rw [pdownAuxF]
    split
    · rfl
    · split <;> (dsimp only; split)
      all_goals first | rfl | rw [ih, pswap_length]

theorem hget_set_ne (h : List K) (i x : Nat) (k : K) (hne : i ≠ x) :
    hget (h.set i k) x = hget h x := by
  rw [hget, hget, List.getD_eq_getElem?_getD, List.getD_eq_getElem?_getD,
    List.getElem?_set, if_neg hne]

theorem hget_set_self (h : List K) (i : Nat) (k : K) (hi : i < h.length) :
    hget (h.set i k) i = k := by
  rw [hget, List.getD_eq_getElem?_getD, List.getElem?_set, if_pos rfl, if_pos hi]
  rfl

theorem hget_pswap_ne (h : List K) (i j x : Nat) (hxi : x ≠ i) (hxj : x ≠ j) :
    hget (pswap h i j) x = hget h x := by
  rw [pswap, hget_set_ne _ _ _ _ (fun hh => hxj hh.symm),
    hget_set_ne _ _ _ _ (fun hh => hxi hh.symm)]

theorem hget_pswap_right (h : List K) (i j : Nat) (hj : j < h.length) :
    hget (pswap h i j) j = hget h i := by
  rw [pswap, hget_set_self _ _ _ (by simpa using hj)]

theorem hget_pswap_left (h : List K) (i j : Nat) (hi : i < h.length) (hij : i ≠ j) :
    hget (pswap h i j) i = hget h j := by
  rw [pswap, hget_set_ne _ _ _ _ (fun hh => hij hh.symm), hget_set_self _ _ _ hi]

theorem pdownAuxF_get_high (f : Nat) (h : List K) (i n : Nat) (x : Nat)
    (hx : n ≤ x) : hget ((pdownAuxF ε f h i n).1) x = hget h x := by
  induction f generalizing h i with
  | zero => rfl
  | succ f ih =>
    rw [pdownAuxF]
    split
    · rfl
    · rename_i h1
      split <;> (dsimp only; split)
      all_goals first
      | rfl
      | (rw [ih]; apply hget_pswap_ne <;> omega)

theorem pupF_get_high (f : Nat) (h : List K) (j : Nat) (x : Nat)
    (hx : j < x) : hget (pupF ε f h j) x = hget h x := by
  induction f generalizing h j with
  | zero => rfl
  | succ f ih =>
    rw [pupF]
    split
    · rfl
    · rename_i hcond
      rw [ih _ _ (by omega)]
      apply hget_pswap_ne <;> omega

end PureLengths

section PurePerms

variable {K : Type} [Inhabited K] [DecidableEq K] (ε : K → Int)

omit [DecidableEq K] in
theorem hget_eq_getElem (h : List K) (i : Nat) (hi : i < h.length) :
    hget h i = h[i] := by
  rw [hget, List.getD_eq_getElem?_getD, List.getElem?_eq_getElem hi]
  rfl

theorem pswap_perm (h : List K) (i j : Nat) (hi : i < h.length)
    (hj : j < h.length) : (pswap h i j).Perm h := by
  rw [List.perm_iff_count]
  intro a
  rw [pswap, List.count_set _ _ _ _ (by simpa using hj),
    List.count_set _ _ _ _ hi]
  rw [hget_eq_getElem h i hi, hget_eq_getElem h j hj]
  have hbi : (if (h[i] == a) = true then 1 else 0) ≤ h.count a := by
    split
    · rename_i hbe
      have hia : h[i] = a := by simpa using hbe
      subst hia
      exact List.count_pos_iff.mpr (List.getElem_mem hi)
    · exact Nat.zero_le _
  by_cases hij : i = j
  · subst hij
    rw [List.getElem_set_self]
    omega
  · rw [List.getElem_set_ne (fun hh => hij hh)]
    omega

theorem pupF_perm (f : Nat) (h : List K) (j : Nat) (hj : j < h.length) :
    (pupF ε f h j).Perm h := by
  induction f generalizing h j with
  | zero => exact List.Perm.refl h
  | succ f ih =>
    rw [pupF]
    split
    · exact List.Perm.refl h
    · rename_i hcond
      have hij : (j - 1) / 2 ≠ j := fun hh => hcond (Or.inl hh)
      have hlt : (j - 1) / 2 < h.length := by omega
      refine List.Perm.trans (ih _ _ ?_) (pswap_perm h _ j hlt hj)
      rw [pswap_length]
      omega

theorem pdownAuxF_perm (f : Nat) (h : List K) (i n : Nat) (hn : n ≤ h.length) :
    ((pdownAuxF ε f h i n).1).Perm h := by
  induction f generalizing h i with
  | zero => exact List.Perm.refl h
  | succ f ih =>
    rw [pdownAuxF]
    split
    · exact List.Perm.refl h
    · rename_i h1
      split <;> (dsimp only; split)
      · exact List.Perm.refl h
      · rename_i hcj hless
        refine List.Perm.trans (ih _ _ (by rwa [pswap_length]))
          (pswap_perm h _ _ (by omega) (by omega))
      · exact List.Perm.refl h
      · rename_i hcj hless
        refine List.Perm.trans (ih _ _ (by rwa [pswap_length]))
          (pswap_perm h _ _ (by omega) (by omega))

theorem ppush_perm (h : List K) (k : K) : (ppush ε h k).Perm (h ++ [k]) := by
  rw [ppush, pup]
  exact pupF_perm ε _ _ _ (by simp)

omit [DecidableEq K] in
theorem take_concat_last (l : List K) (n : Nat) (hl : l.length = n + 1) :
    l = l.take n ++ [hget l n] := by
  conv_lhs => rw [← List.take_append_drop n l]
  congr 1
  rw [hget_eq_getElem _ _ (by omega)]
  rw [List.drop_eq_getElem_cons (by omega)]
  congr 1
  apply List.eq_nil_of_length_eq_zero
  simp [hl]

omit [DecidableEq K] in
theorem ppop_key (h : List K) (hne : h ≠ []) : (ppop ε h).1 = hget h 0 := by
  have hlen : 0 < h.length := List.length_pos.mpr hne
  rw [ppop]
  unfold pdownAux
  dsimp only
  rw [pdownAuxF_get_high ε _ _ _ _ _ (le_refl _)]
  exact hget_pswap_right h 0 (h.length - 1) (by omega)

theorem ppop_perm (h : List K) (hne : h ≠ []) :
    ((ppop ε h).1 :: (ppop ε h).2).Perm h := by
  have hlen : 0 < h.length := List.length_pos.mpr hne
  rw [ppop]
  unfold pdownAux
  dsimp only
  set d := (pdownAuxF ε (h.length - 1 - 0) (pswap h 0 (h.length - 1)) 0 (h.length - 1)).1
    with hd
  have hdlen : d.length = (h.length - 1) + 1 := by
    rw [hd, pdownAuxF_length, pswap_length]
    omega
  have hdperm : d.Perm h := by
    refine List.Perm.trans (pdownAuxF_perm ε _ _ _ _ ?_)
      (pswap_perm h 0 (h.length - 1) (by omega) (by omega))
    rw [pswap_length]
    omega
  have hstep : (hget d (h.length - 1) :: d.take (h.length - 1)).Perm
      (d.take (h.length - 1) ++ [hget d (h.length - 1)]) :=
    (List.perm_append_singleton _ _).symm
  have hdec : d.take (h.length - 1) ++ [hget d (h.length - 1)] = d :=
    (take_concat_last d _ hdlen).symm
  refine hstep.trans ?_
  rw [hdec]
  exact hdperm

omit [DecidableEq K] in
theorem premoveAt_key (h : List K) (i : Nat) (hi : i < h.length) :
    (premoveAt ε h i).1 = hget h i := by
  rw [premoveAt]
  by_cases hin : i ≠ h.length - 1
  · rw [if_pos hin]
    unfold pdownAux
    dsimp only
    have hn : i < h.length - 1 := by omega
    split
    · rw [pdownAuxF_get_high ε _ _ _ _ _ (le_refl _)]
      exact hget_pswap_right h i (h.length - 1) (by omega)
    · rw [pup, pupF_get_high ε _ _ _ _ hn,
        pdownAuxF_get_high ε _ _ _ _ _ (le_refl _)]
      exact hget_pswap_right h i (h.length - 1) (by omega)
  · rw [if_neg hin]
    dsimp only
    have : i = h.length - 1 := by omega
    rw [this]

theorem premoveAt_perm (h : List K) (i : Nat) (hi : i < h.length) :
    ((premoveAt ε h i).1 :: (premoveAt ε h i).2).Perm h := by
  rw [premoveAt]
  by_cases hin : i ≠ h.length - 1
  · rw [if_pos hin]
    unfold pdownAux
    dsimp only
    have hn : i < h.length - 1 := by omega
    set d := pdownAuxF ε (h.length - 1 - i) (pswap h i (h.length - 1)) i (h.length - 1)
      with hd
    have hd1len : d.1.length = h.length := by
      rw [hd, pdownAuxF_length, pswap_length]
    have hd1perm : d.1.Perm h := by
      refine List.Perm.trans (pdownAuxF_perm ε _ _ _ _ ?_)
        (pswap_perm h i (h.length - 1) (by omega) (by omega))
      rw [pswap_length]
      omega
    split
    · have hdec : d.1.take (h.length - 1) ++ [hget d.1 (h.length - 1)] = d.1 :=
        (take_concat_last d.1 _ (by omega)).symm
      refine ((List.perm_append_singleton _ _).symm).trans ?_
      rw [hdec]
      exact hd1perm
    · set u := pup ε d.1 i with hu
      have hulen : u.length = h.length := by
        rw [hu, pup, pupF_length, hd1len]
      have huperm : u.Perm h := by
        rw [hu, pup]
        exact List.Perm.trans (pupF_perm ε _ _ _ (by omega)) hd1perm
      have hdec : u.take (h.length - 1) ++ [hget u (h.length - 1)] = u :=
        (take_concat_last u _ (by omega)).symm
      refine ((List.perm_append_singleton _ _).symm).trans ?_
      rw [hdec]
      exact huperm
  · rw [if_neg hin]
    dsimp only
    have hieq : i = h.length - 1 := by omega
    have hdec : h.take (h.length - 1) ++ [hget h (h.length - 1)] = h :=
      (take_concat_last h _ (by omega)).symm
    refine ((List.perm_append_singleton _ _).symm).trans ?_
    rw [hdec]

theorem pfix_perm (h : List K) (i : Nat) (hi : i < h.length) : (pfix ε h i).Perm h := by
  rw [pfix]
  unfold pdownAux
  have hdperm : (pdownAuxF ε (h.length - i) h i h.length).1.Perm h :=
    pdownAuxF_perm ε _ _ _ _ (le_refl _)
  split
  · exact hdperm
  · rw [pup]
    refine List.Perm.trans (pupF_perm ε _ _ _ ?_) hdperm
    rw [pdownAuxF_length]
    exact hi

end PurePerms

section WFLemmas

variable {K V : Type} [DecidableEq K] [Inhabited K]

omit [Inhabited K] in
theorem lookupKV_mem {m : List (K × Elem V)} {k : K} {e : Elem V}
    (hl : lookupKV m k = some e) : (k, e) ∈ m := by
  induction m with
  | nil => simp [lookupKV] at hl
  | cons p rest ih =>
    obtain ⟨k', e'⟩ := p
    rw [lookupKV] at hl
    by_cases h2 : k' = k
    · subst h2
      rw [if_pos rfl] at hl
      obtain rfl : e' = e := by simpa using hl
      exact List.mem_cons_self _ _
    · rw [if_neg h2] at hl
      exact List.mem_cons_of_mem _ (ih hl)

/-- A temporary entry of a well-formed state sits in the heap exactly at
the slot its `index` field records. -/
theorem wf_heap_position {st : TimedMap K V} (hwf : WF st) {k : K} {e : Elem V}
    (hl : lookupKV st.items k = some e) (hexp : e.expiresAt ≠ ElementPermanent) :
    ∃ p : Nat, p < st.expHeap.length ∧ hget st.expHeap p = k ∧
      e.index = Int.ofNat p := by
  obtain ⟨hnd, hhnd, hslots, hmem⟩ := hwf
  have hk : k ∈ st.expHeap := hmem (k, e) (lookupKV_mem hl) hexp
  obtain ⟨p, hp, hpk⟩ := List.mem_iff_getElem.mp hk
  refine ⟨p, hp, ?_, ?_⟩
  · rw [hget_eq_getElem _ _ hp, hpk]
  · have := (hslots p hp).1
    rw [hget_eq_getElem _ _ hp, hpk, hl] at this
    simpa using this

/-- A permanent entry of a well-formed state is not in the heap. -/
theorem wf_permanent_not_mem {st : TimedMap K V} (hwf : WF st) {k : K} {e : Elem V}
    (hl : lookupKV st.items k = some e) (hexp : e.expiresAt = ElementPermanent) :
    k ∉ st.expHeap := by
  obtain ⟨hnd, hhnd, hslots, hmem⟩ := hwf
  intro hk
  obtain ⟨p, hp, hpk⟩ := List.mem_iff_getElem.mp hk
  have := (hslots p hp).2
  rw [hget_eq_getElem _ _ hp, hpk, hl] at this
  simp [hexp] at this

/-- Removing the slot holding `k` from a duplicate-free heap: `k` is the
popped key, it is gone from the resulting heap, and the rest is a
permutation of the heap with `k` erased. -/
theorem premoveAt_erase (ε : K → Int) (h : List K) (p : Nat) (k : K)
    (hp : p < h.length) (hpk : hget h p = k) (hhnd : h.Nodup) :
    (premoveAt ε h p).1 = k ∧ k ∉ (premoveAt ε h p).2 ∧
    (premoveAt ε h p).2.Perm (h.erase k) := by
  have hkey : (premoveAt ε h p).1 = k := by rw [premoveAt_key ε h p hp, hpk]
  have hperm := premoveAt_perm ε h p hp
  rw [hkey] at hperm
  have hkmem : k ∈ h := by
    rw [← hpk, hget_eq_getElem _ _ hp]
    exact List.getElem_mem hp
  have herase : (premoveAt ε h p).2.Perm (h.erase k) :=
    (List.cons_perm_iff_perm_erase.mp hperm).2
  refine ⟨hkey, ?_, herase⟩
  intro hmem2
  have : k ∈ h.erase k := herase.mem_iff.mp hmem2
  exact (List.Nodup.not_mem_erase hhnd) this

end WFLemmas

section PastBranch

variable {K V : Type} [DecidableEq K] [Inhabited K]

/-- The common "already expired" branch of both `SetExpiry` versions:
remove from the heap when temporary with a non-negative index, then delete
from the map.  In a well-formed state this deletes `k` from both
structures. -/
theorem past_branch_core (st : TimedMap K V) (k : K) (e : Elem V)
    (hwf : WF st) (hl : lookupKV st.items k = some e) :
    lookupKV (eraseKV (if e.expiresAt ≠ ElementPermanent ∧ e.index ≥ 0 then
        ((hRemoveAt st.items st.expHeap e.index.toNat).2.1,
         (hRemoveAt st.items st.expHeap e.index.toNat).2.2)
      else (st.items, st.expHeap)).1 k) k = none ∧
    k ∉ (if e.expiresAt ≠ ElementPermanent ∧ e.index ≥ 0 then
        ((hRemoveAt st.items st.expHeap e.index.toNat).2.1,
         (hRemoveAt st.items st.expHeap e.index.toNat).2.2)
      else (st.items, st.expHeap)).2 ∧
    (if e.expiresAt ≠ ElementPermanent ∧ e.index ≥ 0 then
        ((hRemoveAt st.items st.expHeap e.index.toNat).2.1,
         (hRemoveAt st.items st.expHeap e.index.toNat).2.2)
      else (st.items, st.expHeap)).2.Perm (st.expHeap.erase k) := by
  by_cases hexp : e.expiresAt = ElementPermanent
  · rw [if_neg (by simp [hexp])]
    have hnm := wf_permanent_not_mem hwf hl hexp
    exact ⟨by rw [lookupKV_erase, if_pos rfl], hnm,
      by rw [List.erase_of_not_mem hnm]⟩
  · obtain ⟨p, hp, hpk, hidx⟩ := wf_heap_position hwf hl hexp
    have hge : e.index ≥ 0 := by rw [hidx]; exact Int.ofNat_nonneg p
    rw [if_pos ⟨hexp, hge⟩]
    have htn : e.index.toNat = p := by rw [hidx]; rfl
    obtain ⟨hs1, hs2, hs3⟩ := hRemoveAt_sim st.items st.expHeap e.index.toNat
    obtain ⟨hk1, hk2, hk3⟩ :=
      premoveAt_erase (expOf st.items) st.expHeap p k hp hpk hwf.2.1
    rw [htn] at hs2
    dsimp only
    rw [htn]
    refine ⟨by rw [lookupKV_erase, if_pos rfl], ?_, ?_⟩
    · rw [hs2]; exact hk2
    · rw [hs2]; exact hk3

end PastBranch

/-- C3: `setExpiry(key, t)` with a non-zero `t` at or before the current
time deletes a present key from both the map and the heap, increments the
"removed" counter (leaving "expired" and the other counters unchanged) and
returns `false` ("the key is no longer live"); for an absent key it
returns `false` and leaves the state unchanged (both implementations). -/
theorem C3_setExpiry_past {K V : Type} [DecidableEq K] [Inhabited K]
    (st : TimedMap K V) (k : K) (t : GoTime) (now : Int)
    (hwf : WF st) (ht : t.isZero = false) (hpast : t.nano ≤ now) :
    (∀ e, lookupKV st.items k = some e →
      (temap.SetExpiry st k t now).1 = false ∧
      lookupKV (temap.SetExpiry st k t now).2.items k = none ∧
      k ∉ (temap.SetExpiry st k t now).2.expHeap ∧
      (temap.SetExpiry st k t now).2.expHeap.Perm (st.expHeap.erase k) ∧
      (temap.SetExpiry st k t now).2.stats =
        { st.stats with removed := st.stats.removed + 1 } ∧
      (wpool.SetExpiry st k t now).1 = false ∧
      lookupKV (wpool.SetExpiry st k t now).2.items k = none ∧
      k ∉ (wpool.SetExpiry st k t now).2.expHeap ∧
      (wpool.SetExpiry st k t now).2.expHeap.Perm (st.expHeap.erase k) ∧
      (wpool.SetExpiry st k t now).2.stats =
        { st.stats with removed := st.stats.removed + 1 }) ∧
    (lookupKV st.items k = none →
      temap.SetExpiry st k t now = (false, st) ∧
      wpool.SetExpiry st k t now = (false, st)) := by
  constructor
  · intro e hl
    obtain ⟨hc1, hc2, hc3⟩ := past_branch_core st k e hwf hl
    unfold temap.SetExpiry wpool.SetExpiry
    rw [hl]
    dsimp only
    rw [ht]
    rw [if_neg (show ¬ (false = true) by simp), if_pos hpast,
      if_neg (show ¬ (false = true) by simp), if_pos hpast]
    dsimp only
    exact ⟨rfl, hc1, hc2, hc3, rfl, rfl, hc1, hc2, hc3, rfl⟩
  · intro hl
    unfold temap.SetExpiry wpool.SetExpiry
    rw [hl]
    exact ⟨rfl, rfl⟩

/-- C3 witness: a well-formed one-entry state (key 1, expiry 5) and the
past time 3 (current time 100): the key is deleted from map and heap,
"removed" becomes 1, and the call returns false; on the empty map the call
returns false and changes nothing. -/
theorem C3_setExpiry_past_witness :
    ((temap.SetExpiry (⟨[(1, ⟨10, 5, 0⟩)], [1], ⟨1, 0, 0, 0⟩⟩ : TimedMap Nat Nat)
        1 ⟨3, false⟩ 100).1 = false ∧
     lookupKV (temap.SetExpiry (⟨[(1, ⟨10, 5, 0⟩)], [1], ⟨1, 0, 0, 0⟩⟩ : TimedMap Nat Nat)
        1 ⟨3, false⟩ 100).2.items 1 = none) ∧
    (wpool.SetExpiry (emptyTM Nat Nat) 1 ⟨3, false⟩ 100 = (false, emptyTM Nat Nat)) := by
  have h1 := C3_setExpiry_past
    (⟨[(1, ⟨10, 5, 0⟩)], [1], ⟨1, 0, 0, 0⟩⟩ : TimedMap Nat Nat) 1 ⟨3, false⟩ 100
    (by decide) (by decide) (by decide)
  have h2 := C3_setExpiry_past (emptyTM Nat Nat) 1 ⟨3, false⟩ 100
    (by decide) (by decide) (by decide)
  exact ⟨⟨(h1.1 ⟨10, 5, 0⟩ (by decide)).1, (h1.1 ⟨10, 5, 0⟩ (by decide)).2.1⟩,
    (h2.2 (by decide)).2⟩

section ModifyId

variable {K V : Type} [DecidableEq K]

theorem modifyKV_not_mem (m : List (K × Elem V)) (k : K) (f : Elem V → Elem V)
    (hk : k ∉ m.map Prod.fst) : modifyKV m k f = m := by
  induction m with
  | nil => rfl
  | cons p rest ih =>
    obtain ⟨k', e'⟩ := p
    simp only [List.map_cons, List.mem_cons, not_or] at hk
    rw [modifyKV, List.map_cons]
    rw [modifyKV] at ih
    rw [ih hk.2, if_neg (fun hh => hk.1 hh.symm)]

theorem modifyKV_id {m : List (K × Elem V)} {k : K} {f : Elem V → Elem V}
    {e : Elem V} (hnd : (m.map Prod.fst).Nodup)
    (hl : lookupKV m k = some e) (hfe : f e = e) : modifyKV m k f = m := by
  induction m with
  | nil => rfl
  | cons p rest ih =>
    obtain ⟨k', e'⟩ := p
    simp only [List.map_cons, List.nodup_cons] at hnd
    rw [lookupKV] at hl
    rw [modifyKV, List.map_cons]
    rw [modifyKV] at ih
    by_cases h1 : k' = k
    · obtain rfl : e' = e := by simpa [h1] using hl
      have hrest := modifyKV_not_mem rest k f (h1 ▸ hnd.1)
      rw [modifyKV] at hrest
      rw [if_pos h1, hfe, hrest]
    · rw [if_neg h1, ih hnd.2 (by simpa [h1] using hl)]

end ModifyId

/-- C6: `makePermanent(key)` returns false and changes nothing for an
absent key; returns true and changes nothing for an already permanent key;
and for a temporary key removes it from the heap, writes the sentinel
expiry, increments the permanent counter and returns true — so a second
call also returns true and changes nothing (both implementations). -/
theorem C6_makePermanent {K V : Type} [DecidableEq K] [Inhabited K]
    (st : TimedMap K V) (k : K) (hwf : WF st) :
    (lookupKV st.items k = none →
      temap.MakePermanent st k = (false, st) ∧
      wpool.MakePermanent st k = (false, st)) ∧
    (∀ e, lookupKV st.items k = some e → e.expiresAt = ElementPermanent →
      temap.MakePermanent st k = (true, st) ∧
      wpool.MakePermanent st k = (true, st)) ∧
    (∀ e, lookupKV st.items k = some e → e.expiresAt ≠ ElementPermanent →
      ((temap.MakePermanent st k).1 = true ∧
       (lookupKV (temap.MakePermanent st k).2.items k).map
         (fun x => (x.value, x.expiresAt)) = some (e.value, ElementPermanent) ∧
       k ∉ (temap.MakePermanent st k).2.expHeap ∧
       (temap.MakePermanent st k).2.expHeap.Perm (st.expHeap.erase k) ∧
       (temap.MakePermanent st k).2.stats =
         { st.stats with permanent := st.stats.permanent + 1 } ∧
       temap.MakePermanent (temap.MakePermanent st k).2 k =
         (true, (temap.MakePermanent st k).2)) ∧
      ((wpool.MakePermanent st k).1 = true ∧
       (lookupKV (wpool.MakePermanent st k).2.items k).map
         (fun x => (x.value, x.expiresAt)) = some (e.value, ElementPermanent) ∧
       k ∉ (wpool.MakePermanent st k).2.expHeap ∧
       (wpool.MakePermanent st k).2.expHeap.Perm (st.expHeap.erase k) ∧
       (wpool.MakePermanent st k).2.stats =
         { st.stats with permanent := st.stats.permanent + 1 } ∧
       wpool.MakePermanent (wpool.MakePermanent st k).2 k =
         (true, (wpool.MakePermanent st k).2))) := by
  refine ⟨?_, ?_, ?_⟩
  · intro hl
    unfold temap.MakePermanent wpool.MakePermanent
    rw [hl]
    exact ⟨rfl, rfl⟩
  · intro e hl hexp
    constructor
    · unfold temap.MakePermanent
      rw [hl]
      dsimp only
      rw [if_pos hexp]
    · unfold wpool.MakePermanent
      rw [hl]
      dsimp only
      rw [if_neg (by simpa using hexp)]
      dsimp only
      have hid : modifyKV st.items k
          (fun e => { e with expiresAt := ElementPermanent }) = st.items := by
        refine modifyKV_id hwf.1 hl ?_
        cases e
        simp_all [ElementPermanent]
      rw [hid]
  · intro e hl hexp
    obtain ⟨p, hp, hpk, hidx⟩ := wf_heap_position hwf hl hexp
    have hge : e.index ≥ 0 := by rw [hidx]; exact Int.ofNat_nonneg p
    have hlt : e.index < Int.ofNat st.expHeap.length := by
      rw [hidx]
      exact Int.ofNat_lt.mpr hp
    have htn : e.index.toNat = p := by rw [hidx]; rfl
    obtain ⟨hs1, hs2, hs23⟩ := hRemoveAt_sim st.items st.expHeap e.index.toNat
    have hs3keys := sameObs_keysEq hs23
    have hs3obs := sameObs_lookup hs23
    obtain ⟨hk1, hk2, hk3⟩ :=
      premoveAt_erase (expOf st.items) st.expHeap p k hp hpk hwf.2.1
    rw [htn] at hs2 hs3keys hs3obs
    have hobs := hs3obs k
    rw [hl] at hobs
    constructor
    · unfold temap.MakePermanent
      rw [hl]
      dsimp only
      rw [if_neg hexp, if_pos ⟨hge, hlt⟩]
      dsimp only
      rw [htn]
      cases hmk : lookupKV (hRemoveAt st.items st.expHeap p).2.1 k with
      | none => rw [hmk] at hobs; exact absurd hobs (by simp)
      | some x =>
        rw [hmk] at hobs
        have hx2 : x.value = e.value ∧ x.expiresAt = e.expiresAt := by
          simpa using hobs
        refine ⟨rfl, ?_, by rw [hs2]; exact hk2, by rw [hs2]; exact hk3, rfl, ?_⟩
        · rw [lookupKV_modify, if_pos rfl, hmk]
          simp [hx2.1]
        · rw [lookupKV_modify, if_pos rfl, hmk]
          dsimp only [Option.map]
          rw [if_pos rfl]
    · unfold wpool.MakePermanent
      rw [hl]
      dsimp only
      rw [if_pos (by simpa using hexp), if_pos hge]
      dsimp only
      rw [htn]
      cases hmk : lookupKV (hRemoveAt st.items st.expHeap p).2.1 k with
      | none => rw [hmk] at hobs; exact absurd hobs (by simp)
      | some x =>
        rw [hmk] at hobs
        have hx2 : x.value = e.value ∧ x.expiresAt = e.expiresAt := by
          simpa using hobs
        refine ⟨rfl, ?_, by rw [hs2]; exact hk2, by rw [hs2]; exact hk3, rfl, ?_⟩
        · rw [lookupKV_modify, if_pos rfl, hmk]
          simp [hx2.1]
        · rw [lookupKV_modify, if_pos rfl, hmk]
          dsimp only [Option.map]
          rw [if_neg (by simp)]
          dsimp only
          have hnd2 : ((modifyKV (hRemoveAt st.items st.expHeap p).2.1 k
              (fun e => { e with expiresAt := ElementPermanent })).map Prod.fst).Nodup := by
            rw [modifyKV_map_fst, hs3keys]
            exact hwf.1
          have hl2 : lookupKV (modifyKV (hRemoveAt st.items st.expHeap p).2.1 k
              (fun e => { e with expiresAt := ElementPermanent })) k =
              some { x with expiresAt := ElementPermanent } := by
            rw [lookupKV_modify, if_pos rfl, hmk]
            rfl
          rw [modifyKV_id hnd2 hl2 rfl]

/-- C6 witness: on a well-formed state with one temporary entry
(key 1, expiry 5), `MakePermanent 1` returns true, empties the heap and
bumps the permanent counter; on the empty map it returns false. -/
theorem C6_makePermanent_witness :
    ((temap.MakePermanent (⟨[(1, ⟨10, 5, 0⟩)], [1], ⟨1, 0, 0, 0⟩⟩ : TimedMap Nat Nat) 1).1
       = true ∧
     1 ∉ (temap.MakePermanent
       (⟨[(1, ⟨10, 5, 0⟩)], [1], ⟨1, 0, 0, 0⟩⟩ : TimedMap Nat Nat) 1).2.expHeap) ∧
    temap.MakePermanent (emptyTM Nat Nat) 1 = (false, emptyTM Nat Nat) := by
  have h1 := C6_makePermanent
    (⟨[(1, ⟨10, 5, 0⟩)], [1], ⟨1, 0, 0, 0⟩⟩ : TimedMap Nat Nat) 1 (by decide)
  have h2 := C6_makePermanent (emptyTM Nat Nat) 1 (by decide)
  exact ⟨⟨(h1.2.2 ⟨10, 5, 0⟩ (by decide) (by decide)).1.1,
    (h1.2.2 ⟨10, 5, 0⟩ (by decide) (by decide)).1.2.2.1⟩,
    (h2.1 (by decide)).1⟩

/-- C2 (amended): worker-pool `SetTemporary` on an existing key. If the
entry was temporary, its value and expiry are updated and its heap slot is
sifted in place — the heap keeps exactly the same keys — rather than
re-pushed, even when the new expiry is the permanent sentinel.  If the
entry was permanent, only its value is updated: it stays permanent and is
not pushed into the heap.  For an absent key whose expiry equals the
permanent sentinel, `SetTemporary` produces exactly the state
`SetPermanent` produces. -/
theorem C2_setTemporary_existing {K V : Type} [DecidableEq K] [Inhabited K]
    (st : TimedMap K V) (k : K) (v : V) (t : GoTime) (hwf : WF st) :
    (lookupKV st.items k = none → t.nano = ElementPermanent →
      wpool.SetTemporary st k v t = wpool.SetPermanent st k v) ∧
    (∀ e, lookupKV st.items k = some e → e.expiresAt = ElementPermanent →
      (lookupKV (wpool.SetTemporary st k v t).items k).map
        (fun x => (x.value, x.expiresAt)) = some (v, ElementPermanent) ∧
      (wpool.SetTemporary st k v t).expHeap = st.expHeap ∧
      (wpool.SetTemporary st k v t).stats = st.stats) ∧
    (∀ e, lookupKV st.items k = some e → e.expiresAt ≠ ElementPermanent →
      (lookupKV (wpool.SetTemporary st k v t).items k).map
        (fun x => (x.value, x.expiresAt)) = some (v, t.nano) ∧
      (wpool.SetTemporary st k v t).expHeap.Perm st.expHeap ∧
      (wpool.SetTemporary st k v t).stats = st.stats) := by
  refine ⟨?_, ?_, ?_⟩
  · intro hl ht0
    unfold wpool.SetTemporary wpool.SetPermanent
    rw [hl]
    dsimp only
    rw [ht0, if_neg (by simp)]
  · intro e hl hexp
    unfold wpool.SetTemporary
    rw [hl]
    dsimp only
    rw [if_neg (by simpa using hexp)]
    refine ⟨?_, rfl, rfl⟩
    rw [lookupKV_modify, if_pos rfl, hl]
    simp [hexp]
  · intro e hl hexp
    obtain ⟨p, hp, hpk, hidx⟩ := wf_heap_position hwf hl hexp
    have hge : e.index ≥ 0 := by rw [hidx]; exact Int.ofNat_nonneg p
    have htn : e.index.toNat = p := by rw [hidx]; rfl
    unfold wpool.SetTemporary
    rw [hl]
    dsimp only
    rw [if_pos (by simpa using hexp), if_pos hge, htn]
    obtain ⟨hf1, hf2⟩ := hFix_sim
      (modifyKV (modifyKV st.items k fun e => { e with value := v }) k
        fun e => { e with expiresAt := t.nano })
      st.expHeap p
    refine ⟨?_, ?_, rfl⟩
    · have hobs := sameObs_lookup hf2 k
      rw [lookupKV_modify, if_pos rfl, lookupKV_modify, if_pos rfl, hl] at hobs
      rw [hobs]
      rfl
    · rw [hf1]
      exact pfix_perm _ st.expHeap p hp

/-- C2 witness: on a well-formed state with one temporary entry (expiry 5),
`SetTemporary 1 20 (t=7)` updates the expiry and keeps the heap a
permutation of itself; on a state with one permanent entry, only the value
changes; and on the empty map with sentinel time, `SetTemporary` equals
`SetPermanent`. -/
theorem C2_setTemporary_existing_witness :
    ((lookupKV (wpool.SetTemporary (⟨[(1, ⟨10, 5, 0⟩)], [1], ⟨1, 0, 0, 0⟩⟩ :
        TimedMap Nat Nat) 1 20 ⟨7, false⟩).items 1).map
        (fun x => (x.value, x.expiresAt)) = some (20, 7) ∧
     (wpool.SetTemporary (⟨[(1, ⟨10, 5, 0⟩)], [1], ⟨1, 0, 0, 0⟩⟩ :
        TimedMap Nat Nat) 1 20 ⟨7, false⟩).expHeap.Perm [1]) ∧
    ((lookupKV (wpool.SetTemporary (⟨[(1, ⟨10, 0, 0⟩)], [], ⟨1, 0, 0, 1⟩⟩ :
        TimedMap Nat Nat) 1 20 ⟨7, false⟩).items 1).map
        (fun x => (x.value, x.expiresAt)) = some (20, ElementPermanent)) ∧
    wpool.SetTemporary (emptyTM Nat Nat) 1 20 ⟨0, false⟩ =
      wpool.SetPermanent (emptyTM Nat Nat) 1 20 := by
  have h1 := C2_setTemporary_existing
    (⟨[(1, ⟨10, 5, 0⟩)], [1], ⟨1, 0, 0, 0⟩⟩ : TimedMap Nat Nat) 1 20 ⟨7, false⟩
    (by decide)
  have h2 := C2_setTemporary_existing
    (⟨[(1, ⟨10, 0, 0⟩)], [], ⟨1, 0, 0, 1⟩⟩ : TimedMap Nat Nat) 1 20 ⟨7, false⟩
    (by decide)
  have h3 := C2_setTemporary_existing (emptyTM Nat Nat) 1 20 ⟨0, false⟩ (by decide)
  exact ⟨⟨(h1.2.2 ⟨10, 5, 0⟩ (by decide) (by decide)).1,
      (h1.2.2 ⟨10, 5, 0⟩ (by decide) (by decide)).2.1⟩,
    (h2.2.1 ⟨10, 0, 0⟩ (by decide) (by decide)).1,
    h3.1 (by decide) (by decide)⟩

section HeapOrder

variable {K : Type} [Inhabited K] (ε : K → Int)

omit [Inhabited K] in
theorem getElem?_take_lt {l : List K} {n x : Nat} (hx : x < n) :
    (l.take n)[x]? = l[x]? :=
  List.getElem?_take_of_lt hx

theorem hget_take {l : List K} {n x : Nat} (hx : x < n) :
    hget (l.take n) x = hget l x := by
  rw [hget, hget, List.getD_eq_getElem?_getD, List.getD_eq_getElem?_getD,
    getElem?_take_lt hx]

theorem hget_mem {l : List K} {x : Nat} (hx : x < l.length) :
    hget l x ∈ l := by
  rw [hget_eq_getElem _ _ hx]
  exact List.getElem_mem hx

theorem isHeapUpTo_congr {ε2 : K → Int} (h : List K) (n : Nat)
    (hn : n ≤ h.length) (hagree : ∀ x ∈ h, ε x = ε2 x)
    (hh : IsHeapUpTo ε h n) : IsHeapUpTo ε2 h n := by
  intro c hc hc0
  rw [← hagree _ (hget_mem (by omega)), ← hagree _ (hget_mem (by omega))]
  exact hh c hc hc0

theorem isHeapUpTo_take (h : List K) (n : Nat) (hh : IsHeapUpTo ε h n) :
    IsHeapUpTo ε (h.take n) n := by
  intro c hc hc0
  rw [hget_take hc, hget_take (by omega)]
  exact hh c hc hc0

/-- The root of a min-heap is a lower bound for every slot. -/
theorem root_min (h : List K) (n : Nat) (hh : IsHeapUpTo ε h n) :
    ∀ i, i < n → ε (hget h 0) ≤ ε (hget h i) := by
  intro i
  induction i using Nat.strong_induction_on with
  | _ i ih =>
    intro hi
    rcases Nat.eq_zero_or_pos i with h0 | h0
    · subst h0; exact le_refl _
    · have hpar : (i - 1) / 2 < i := by omega
      exact le_trans (ih _ hpar (by omega)) (hh i hi h0)

theorem root_min_mem (h : List K) (hh : IsHeapUpTo ε h h.length) :
    ∀ x ∈ h, ε (hget h 0) ≤ ε x := by
  intro x hx
  obtain ⟨i, hi, hix⟩ := List.mem_iff_getElem.mp hx
  have := root_min ε h h.length hh i hi
  rwa [hget_eq_getElem _ _ hi, hix] at this

end HeapOrder

section DownRestores

variable {K : Type} [Inhabited K] (ε : K → Int)

/-- `down(h, i, n)` restores the min-heap property on the first `n` slots
when every parent/child violation is at `i`, and the would-be parent of
`i` is already at most `i`'s children. -/
theorem pdownAuxF_restores (f : Nat) (h : List K) (i n : Nat)
    (hn : n ≤ h.length) (hfuel : n - i ≤ f)
    (hA : ∀ c, c < n → 0 < c → (c - 1) / 2 ≠ i →
      ε (hget h ((c - 1) / 2)) ≤ ε (hget h c))
    (hB : ∀ c, c < n → 0 < c → (c - 1) / 2 = i → 0 < i →
      ε (hget h ((i - 1) / 2)) ≤ ε (hget h c)) :
    IsHeapUpTo ε ((pdownAuxF ε f h i n).1) n := by
  induction f generalizing h i with
  | zero =>
    intro c hc hc0
    by_cases hpc : (c - 1) / 2 = i
    · exfalso
      have hcc : c = 2 * i + 1 ∨ c = 2 * i + 2 := by omega
      omega
    · exact hA c hc hc0 hpc
  | succ f ih =>
    simp only [pdownAuxF]
    by_cases h1 : 2 * i + 1 ≥ n
    · rw [if_pos h1]
      intro c hc hc0
      by_cases hpc : (c - 1) / 2 = i
      · exfalso
        have hcc : c = 2 * i + 1 ∨ c = 2 * i + 2 := by omega
        omega
      · exact hA c hc hc0 hpc
    · rw [if_neg h1]
      have main : ∀ j, (j = 2 * i + 1 ∨ j = 2 * i + 2) → j < n →
          (∀ c, c < n → 0 < c → (c - 1) / 2 = i →
            ε (hget h j) ≤ ε (hget h c)) →
          IsHeapUpTo ε ((if ¬ pless ε h j i = true then (h, i)
            else pdownAuxF ε f (pswap h i j) j n).1) n := by
        intro j hj hjn hjmin
        have hij : i < j := by omega
        have hpj : (j - 1) / 2 = i := by omega
        by_cases hbr : ¬ pless ε h j i = true
        · rw [if_pos hbr]
          have hile : ε (hget h i) ≤ ε (hget h j) := by
            simpa [pless, not_lt] using hbr
          intro c hc hc0
          by_cases hpc : (c - 1) / 2 = i
          · rw [hpc]
            exact le_trans hile (hjmin c hc hc0 hpc)
          · exact hA c hc hc0 hpc
        · rw [if_neg hbr]
          have hsw : ε (hget h j) < ε (hget h i) := by
            simpa [pless] using hbr
          apply ih (pswap h i j) j (by rwa [pswap_length]) (by omega)
          · -- the only possible violation in the swapped list is at j
            intro c hc hc0 hpc
            by_cases hci : (c - 1) / 2 = i
            · have hcne_i : c ≠ i := by omega
              rw [hci, hget_pswap_left h i j (by omega) (by omega)]
              by_cases hcj2 : c = j
              · rw [hcj2, hget_pswap_right h i j (by omega)]
                exact le_of_lt hsw
              · rw [hget_pswap_ne h i j c hcne_i hcj2]
                exact hjmin c hc hc0 hci
            · by_cases hcii : c = i
              · rw [hcii, hget_pswap_left h i j (by omega) (by omega),
                  hget_pswap_ne h i j ((i - 1) / 2) (by omega) (by omega)]
                exact hB j hjn (by omega) hpj (by omega)
              · by_cases hcjj : c = j
                · exfalso
                  apply hci
                  rw [hcjj]
                  exact hpj
                · rw [hget_pswap_ne h i j c hcii hcjj,
                    hget_pswap_ne h i j ((c - 1) / 2) hci hpc]
                  exact hA c hc hc0 hci
          · -- the would-be parent of j now holds the old child value
            intro c hc hc0 hpc hj0
            rw [hpj, hget_pswap_left h i j (by omega) (by omega),
              hget_pswap_ne h i j c (by omega) (by omega), ← hpc]
            exact hA c hc hc0 (by omega)
      by_cases hcj : 2 * i + 1 + 1 < n ∧ pless ε h (2 * i + 1 + 1) (2 * i + 1) = true
      · rw [if_pos hcj]
        have hlt2 : ε (hget h (2 * i + 1 + 1)) < ε (hget h (2 * i + 1)) := by
          have := hcj.2
          simpa [pless] using this
        apply main (2 * i + 1 + 1) (Or.inr (by omega)) hcj.1
        intro c hc hc0 hpc
        have hcc : c = 2 * i + 1 ∨ c = 2 * i + 2 := by omega
        rcases hcc with hc1 | hc2
        · rw [hc1]
          exact le_of_lt hlt2
        · rw [hc2, show 2 * i + 1 + 1 = 2 * i + 2 by omega]
      · rw [if_neg hcj]
        apply main (2 * i + 1) (Or.inl rfl) (by omega)
        intro c hc hc0 hpc
        have hcc : c = 2 * i + 1 ∨ c = 2 * i + 2 := by omega
        rcases hcc with hc1 | hc2
        · rw [hc1]
        · rw [hc2]
          have hle2 : ¬ ε (hget h (2 * i + 1 + 1)) < ε (hget h (2 * i + 1)) := by
            intro hlt
            exact hcj ⟨by omega, by simpa [pless] using hlt⟩
          have := not_lt.mp hle2
          simpa using this

end DownRestores

section PopRestores

variable {K : Type} [Inhabited K] (ε : K → Int)

theorem ppop_length (h : List K) (hne : h ≠ []) :
    (ppop ε h).2.length = h.length - 1 := by
  have hlen : 0 < h.length := List.length_pos.mpr hne
  rw [ppop]
  unfold pdownAux
  dsimp only
  rw [List.length_take, pdownAuxF_length, pswap_length]
  omega

/-- Popping the root of a min-heap leaves a min-heap. -/
theorem ppop_restores (h : List K) (hne : h ≠ []) (hh : IsHeapUpTo ε h h.length) :
    IsHeapUpTo ε (ppop ε h).2 (h.length - 1) := by
  have hlen : 0 < h.length := List.length_pos.mpr hne
  rw [ppop]
  unfold pdownAux
  dsimp only
  apply isHeapUpTo_take
  apply pdownAuxF_restores
  · rw [pswap_length]; omega
  · omega
  · intro c hc hc0 hpc
    rw [hget_pswap_ne h 0 (h.length - 1) _ hpc (by omega),
      hget_pswap_ne h 0 (h.length - 1) c (by omega) (by omega)]
    exact hh c (by omega) hc0
  · intro c hc hc0 hpc hi0
    exact absurd hi0 (by omega)

end PopRestores

section DrainGlue

variable {K V : Type} [DecidableEq K]

theorem expOf_erase_ne (m : List (K × Elem V)) (k x : K) (hx : x ≠ k) :
    expOf (eraseKV m k) x = expOf m x := by
  rw [expOf, lookupKV_erase, if_neg hx, expOf]

theorem expOf_eq_of_lookup {m : List (K × Elem V)} {k : K} {e : Elem V}
    (hl : lookupKV m k = some e) : expOf m k = e.expiresAt := by
  rw [expOf, hl]
  rfl

theorem sameObs_isSome {m1 m2 : List (K × Elem V)} (h : sameObs m1 m2) (x : K) :
    (lookupKV m1 x).isSome = (lookupKV m2 x).isSome := by
  have hx := h.2 x
  cases h1 : lookupKV m1 x <;> cases h2 : lookupKV m2 x <;>
    rw [h1, h2] at hx <;> simp_all

theorem sameObs_none {m1 m2 : List (K × Elem V)} (h : sameObs m1 m2) (x : K)
    (hn : lookupKV m2 x = none) : lookupKV m1 x = none := by
  have hx := h.2 x
  rw [hn] at hx
  cases h1 : lookupKV m1 x
  · rfl
  · rw [h1] at hx
    simp at hx

end DrainGlue

section DrainSpec

variable {K V : Type} [DecidableEq K] [Inhabited K] [Inhabited V]

/-- One drain pass, specified: the popped prefix and the remaining heap
partition the original heap; every popped entry was due and is recorded
with its original expiry; every remaining entry is not due; pops happen in
non-decreasing expiry order; every popped key is deleted from the map
(and keys absent before stay absent); and exactly the popped entries are
counted as expired, with the removed counter untouched. -/
theorem drainLoop_spec (cnt : Nat) (st : TimedMap K V) (now : Int)
    (hcnt : st.expHeap.length ≤ cnt)
    (hnd : st.expHeap.Nodup)
    (hkeys : ∀ x ∈ st.expHeap, (lookupKV st.items x).isSome = true)
    (hord : IsHeapUpTo (expOf st.items) st.expHeap st.expHeap.length) :
    ((wpool.drainLoop cnt st now).1.map Prod.fst ++
      (wpool.drainLoop cnt st now).2.expHeap).Perm st.expHeap ∧
    (∀ pr ∈ (wpool.drainLoop cnt st now).1,
      pr.2.expiresAt = expOf st.items pr.1 ∧ pr.2.expiresAt ≤ now) ∧
    (∀ x ∈ (wpool.drainLoop cnt st now).2.expHeap,
      ¬ expOf (wpool.drainLoop cnt st now).2.items x ≤ now) ∧
    List.Sorted (· ≤ ·)
      ((wpool.drainLoop cnt st now).1.map fun pr => pr.2.expiresAt) ∧
    (∀ pr ∈ (wpool.drainLoop cnt st now).1,
      lookupKV (wpool.drainLoop cnt st now).2.items pr.1 = none) ∧
    (∀ x, lookupKV st.items x = none →
      lookupKV (wpool.drainLoop cnt st now).2.items x = none) ∧
    (wpool.drainLoop cnt st now).2.stats.expired =
      st.stats.expired + (wpool.drainLoop cnt st now).1.length ∧
    (wpool.drainLoop cnt st now).2.stats.removed = st.stats.removed := by
  induction cnt generalizing st with
  | zero =>
    have hh : st.expHeap = [] := List.length_eq_zero.mp (Nat.le_zero.mp hcnt)
    have heq0 : wpool.drainLoop 0 st now = ([], st) := by
      rw [wpool.drainLoop]
    rw [heq0]
    refine ⟨by simp [hh], by simp, ?_, by simp, by simp, fun x hx => hx,
      by simp, rfl⟩
    intro x hx
    have hx' : x ∈ st.expHeap := hx
    rw [hh] at hx'
    exact absurd hx' (List.not_mem_nil x)
  | succ cnt ih =>
    cases hh : st.expHeap with
    | nil =>
      have heqn : wpool.drainLoop (cnt + 1) st now = ([], st) := by
        rw [wpool.drainLoop, hh]
      rw [heqn]
      refine ⟨by simp [hh], by simp, ?_, by simp, by simp, fun x hx => hx,
        by simp, rfl⟩
      intro x hx
      have hx' : x ∈ st.expHeap := hx
      rw [hh] at hx'
      exact absurd hx' (List.not_mem_nil x)
    | cons a tl =>
      rw [hh] at hcnt hnd hkeys hord
      have hne : (a :: tl : List K) ≠ [] := by simp
      by_cases hdue : expOf st.items (hget (a :: tl) 0) ≤ now
      · -- due branch: the root is popped and the loop recurses
        set p := hPopHeap st.items (a :: tl) with hp
        set el : Elem V := (lookupKV p.2.1 p.1).getD ⟨default, 0, -1⟩ with hel
        set st1 : TimedMap K V :=
          { items := eraseKV p.2.1 p.1
            expHeap := p.2.2
            stats := { added := st.stats.added, removed := st.stats.removed,
                       expired := st.stats.expired + 1,
                       permanent := st.stats.permanent } } with hst1
        set r := wpool.drainLoop cnt st1 now with hrr
        have hsim := hPopHeap_sim st.items (a :: tl)
        rw [← hp] at hsim
        obtain ⟨hp1, hp2, hp3⟩ := hsim
        have hkey : p.1 = hget (a :: tl) 0 := by rw [hp1, ppop_key _ _ hne]
        have hperm0 : (p.1 :: p.2.2).Perm (a :: tl) := by
          rw [hp1, hp2]
          exact ppop_perm _ _ hne
        have hnd0 : (p.1 :: p.2.2).Nodup := (hperm0.nodup_iff).mpr hnd
        have hknotin : p.1 ∉ p.2.2 := (List.nodup_cons.mp hnd0).1
        have hnd1 : p.2.2.Nodup := (List.nodup_cons.mp hnd0).2
        have hmemh : ∀ x ∈ p.2.2, x ∈ (a :: tl) := fun x hx =>
          hperm0.mem_iff.mp (List.mem_cons_of_mem _ hx)
        have hkmem : p.1 ∈ (a :: tl) :=
          hperm0.mem_iff.mp (List.mem_cons_self _ _)
        obtain ⟨e0, he0⟩ := Option.isSome_iff_exists.mp (hkeys p.1 hkmem)
        have hsome1 : (lookupKV p.2.1 p.1).isSome = true := by
          rw [sameObs_isSome hp3]
          exact hkeys p.1 hkmem
        obtain ⟨x0, hx0⟩ := Option.isSome_iff_exists.mp hsome1
        have hobsk := sameObs_lookup hp3 p.1
        rw [hx0, he0] at hobsk
        have hx0ve : x0.value = e0.value ∧ x0.expiresAt = e0.expiresAt := by
          simpa using hobsk
        have helx : el = x0 := by rw [hel, hx0]; rfl
        have hexpk : x0.expiresAt = expOf st.items p.1 := by
          rw [hx0ve.2, expOf_eq_of_lookup he0]
        have hlen22 : p.2.2.length = tl.length := by
          rw [hp2, ppop_length _ _ hne]
          simp
        have heq : wpool.drainLoop (cnt + 1) st now = ((p.1, el) :: r.1, r.2) := by
          rw [hrr, hst1, hel, hp]
          rw [wpool.drainLoop, hh]
          dsimp only
          rw [if_pos hdue]
        have hcnt1 : st1.expHeap.length ≤ cnt := by
          show p.2.2.length ≤ cnt
          rw [hlen22]
          simp only [List.length_cons] at hcnt
          omega
        have hnd1' : st1.expHeap.Nodup := hnd1
        have hkeys1 : ∀ x ∈ st1.expHeap, (lookupKV st1.items x).isSome = true := by
          intro x hx
          have hx' : x ∈ p.2.2 := hx
          have hxne : x ≠ p.1 := fun hc => hknotin (hc ▸ hx')
          show (lookupKV (eraseKV p.2.1 p.1) x).isSome = true
          rw [lookupKV_erase, if_neg hxne, sameObs_isSome hp3]
          exact hkeys x (hmemh x hx')
        have hord1 : IsHeapUpTo (expOf st1.items) st1.expHeap st1.expHeap.length := by
          have hres := ppop_restores (expOf st.items) (a :: tl) hne hord
          rw [← hp2] at hres
          have hlen' : (a :: tl).length - 1 = p.2.2.length := by
            rw [hlen22]
            simp
          rw [hlen'] at hres
          show IsHeapUpTo (expOf st1.items) p.2.2 p.2.2.length
          refine isHeapUpTo_congr _ _ _ (le_refl _) ?_ hres
          intro x hx
          have hxne : x ≠ p.1 := fun hc => hknotin (hc ▸ hx)
          show expOf st.items x = expOf (eraseKV p.2.1 p.1) x
          rw [expOf_erase_ne _ _ _ hxne, sameObs_expOf hp3]
        obtain ⟨ih1, ih2, ih3, ih4, ih5, ih6, ih7, ih8⟩ :=
          ih st1 hcnt1 hnd1' hkeys1 hord1
        rw [← hrr] at ih1 ih2 ih3 ih4 ih5 ih6 ih7 ih8
        have hst1heap : st1.expHeap = p.2.2 := by rw [hst1]
        rw [hst1heap] at ih1
        have hkeyin : ∀ pr ∈ r.1, pr.1 ∈ p.2.2 := by
          intro pr hpr
          exact ih1.mem_iff.mp
            (List.mem_append.mpr (Or.inl (List.mem_map_of_mem Prod.fst hpr)))
        have hexp_r : ∀ pr ∈ r.1,
            pr.2.expiresAt = expOf st.items pr.1 ∧ pr.2.expiresAt ≤ now := by
          intro pr hpr
          have h2 := ih2 pr hpr
          have hxne : pr.1 ≠ p.1 := fun hc => hknotin (hc ▸ hkeyin pr hpr)
          have hq : expOf st1.items pr.1 = expOf st.items pr.1 := by
            show expOf (eraseKV p.2.1 p.1) pr.1 = expOf st.items pr.1
            rw [expOf_erase_ne _ _ _ hxne, sameObs_expOf hp3]
          exact ⟨h2.1.trans hq, h2.2⟩
        have hel_exp : el.expiresAt = expOf st.items (hget (a :: tl) 0) := by
          rw [helx, hexpk, hkey]
        have hroot := root_min_mem (expOf st.items) (a :: tl) hord
        rw [heq]
        refine ⟨?_, ?_, ?_, ?_, ?_, ?_, ?_, ?_⟩
        · show (List.map Prod.fst ((p.1, el) :: r.1) ++ r.2.expHeap).Perm (a :: tl)
          exact (ih1.cons p.1).trans hperm0
        · intro pr hpr
          rcases List.mem_cons.mp hpr with h | h
          · subst h
            refine ⟨?_, ?_⟩
            · show el.expiresAt = expOf st.items p.1
              rw [helx, hexpk]
            · show el.expiresAt ≤ now
              rw [hel_exp]
              exact hdue
          · exact hexp_r pr h
        · exact ih3
        · show List.Sorted (· ≤ ·)
            (List.map (fun pr => pr.2.expiresAt) ((p.1, el) :: r.1))
          rw [List.map_cons]
          refine List.sorted_cons.mpr ⟨?_, ih4⟩
          intro b hb
          obtain ⟨pr, hpr, hprb⟩ := List.mem_map.mp hb
          subst hprb
          show el.expiresAt ≤ pr.2.expiresAt
          rw [hel_exp, (hexp_r pr hpr).1]
          exact hroot pr.1 (hmemh pr.1 (hkeyin pr hpr))
        · intro pr hpr
          rcases List.mem_cons.mp hpr with h | h
          · subst h
            show lookupKV r.2.items p.1 = none
            apply ih6
            show lookupKV (eraseKV p.2.1 p.1) p.1 = none
            rw [lookupKV_erase, if_pos rfl]
          · exact ih5 pr h
        · intro x hx
          apply ih6
          show lookupKV (eraseKV p.2.1 p.1) x = none
          rw [lookupKV_erase]
          by_cases hxp : x = p.1
          · rw [if_pos hxp]
          · rw [if_neg hxp]
            exact sameObs_none hp3 x hx
        · show r.2.stats.expired = st.stats.expired + ((p.1, el) :: r.1).length
          have h7 : st1.stats.expired = st.stats.expired + 1 := by rw [hst1]
          rw [ih7, h7, List.length_cons]
          omega
        · exact ih8
      · -- not due: the pass stops without popping anything
        have heqf : wpool.drainLoop (cnt + 1) st now = ([], st) := by
          rw [wpool.drainLoop, hh]
          dsimp only
          rw [if_neg hdue]
        rw [heqf]
        have hroot := root_min_mem (expOf st.items) (a :: tl) hord
        refine ⟨by simp [hh], by simp, ?_, by simp, by simp, fun x hx => hx,
          by simp, rfl⟩
        intro x hx
        have hx' : x ∈ st.expHeap := hx
        rw [hh] at hx'
        intro hle
        exact hdue (le_trans (hroot x hx') hle)

end DrainSpec

section DrainFrame

variable {K V : Type} [DecidableEq K] [Inhabited K] [Inhabited V]

/-- Keys that a drain pass does not pop keep their observable entry
(value and expiry) unchanged. -/
theorem drainLoop_frame (cnt : Nat) (st : TimedMap K V) (now : Int) (x : K) :
    x ∉ (wpool.drainLoop cnt st now).1.map Prod.fst →
    (lookupKV (wpool.drainLoop cnt st now).2.items x).map
        (fun e => (e.value, e.expiresAt)) =
      (lookupKV st.items x).map (fun e => (e.value, e.expiresAt)) := by
  induction cnt generalizing st with
  | zero =>
    have heq0 : wpool.drainLoop 0 st now = ([], st) := by
      rw [wpool.drainLoop]
    rw [heq0]
    intro _
    rfl
  | succ cnt ih =>
    cases hh : st.expHeap with
    | nil =>
      have heqn : wpool.drainLoop (cnt + 1) st now = ([], st) := by
        rw [wpool.drainLoop, hh]
      rw [heqn]
      intro _
      rfl
    | cons a tl =>
      by_cases hdue : expOf st.items (hget (a :: tl) 0) ≤ now
      · set p := hPopHeap st.items (a :: tl) with hp
        set el : Elem V := (lookupKV p.2.1 p.1).getD ⟨default, 0, -1⟩ with hel
        set st1 : TimedMap K V :=
          { items := eraseKV p.2.1 p.1
            expHeap := p.2.2
            stats := { added := st.stats.added, removed := st.stats.removed,
                       expired := st.stats.expired + 1,
                       permanent := st.stats.permanent } } with hst1
        set r := wpool.drainLoop cnt st1 now with hrr
        have heq : wpool.drainLoop (cnt + 1) st now = ((p.1, el) :: r.1, r.2) := by
          rw [hrr, hst1, hel, hp]
          rw [wpool.drainLoop, hh]
          dsimp only
          rw [if_pos hdue]
        rw [heq]
        intro hx
        simp only [List.map_cons, List.mem_cons, not_or] at hx
        obtain ⟨hxne, hxr⟩ := hx
        have hsim := hPopHeap_sim st.items (a :: tl)
        rw [← hp] at hsim
        have hp3 := hsim.2.2
        have hstep : (lookupKV st1.items x).map (fun e => (e.value, e.expiresAt)) =
            (lookupKV st.items x).map (fun e => (e.value, e.expiresAt)) := by
          show (lookupKV (eraseKV p.2.1 p.1) x).map (fun e => (e.value, e.expiresAt)) =
            (lookupKV st.items x).map (fun e => (e.value, e.expiresAt))
          rw [lookupKV_erase, if_neg hxne]
          exact sameObs_lookup hp3 x
        exact (ih st1 hxr).trans hstep
      · have heqf : wpool.drainLoop (cnt + 1) st now = ([], st) := by
          rw [wpool.drainLoop, hh]
          dsimp only
          rw [if_neg hdue]
        rw [heqf]
        intro _
        rfl

end DrainFrame

section ClaimC4

variable {K V : Type} [DecidableEq K] [Inhabited K] [Inhabited V]

/-- C4: one drain pass of the cleaner (`startCleaner`, `wait <= 0` branch)
pops, in non-decreasing `expiresAt` order, exactly the entries whose
`expiresAt` is at or before the current time: every popped entry was due
and is deleted from the store, every entry still in the heap afterwards is
not yet due, every due temporary entry of the store is among the popped
keys, and the popped keys together with the remaining heap are a
permutation of the original heap.  (The mutex is not modelled: the pass
acts on the state in one atomic step, and dispatch receives the popped
list only after the pass is finished, mirroring the `Unlock` that precedes
the dispatch loop in the source.) -/
theorem C4_drain_pass (st : TimedMap K V) (now : Int)
    (hwf : WF st) (hord : HeapOrdered st) :
    (∀ pr ∈ (wpool.drainExpired st now).1, pr.2.expiresAt ≤ now) ∧
    (∀ pr ∈ (wpool.drainExpired st now).1,
      lookupKV (wpool.drainExpired st now).2.items pr.1 = none) ∧
    List.Sorted (· ≤ ·)
      ((wpool.drainExpired st now).1.map fun pr => pr.2.expiresAt) ∧
    (∀ k, ∀ e : Elem V, lookupKV st.items k = some e →
      e.expiresAt ≠ ElementPermanent → e.expiresAt ≤ now →
      k ∈ (wpool.drainExpired st now).1.map Prod.fst) ∧
    (∀ x ∈ (wpool.drainExpired st now).2.expHeap,
      ¬ expOf (wpool.drainExpired st now).2.items x ≤ now) ∧
    ((wpool.drainExpired st now).1.map Prod.fst ++
      (wpool.drainExpired st now).2.expHeap).Perm st.expHeap := by
  obtain ⟨hndI, hndH, hslots, hmem⟩ := hwf
  have hkeys : ∀ x ∈ st.expHeap, (lookupKV st.items x).isSome = true := by
    intro x hx
    obtain ⟨i, hi, hix⟩ := List.mem_iff_getElem.mp hx
    have h3 := (hslots i hi).1
    rw [hget_eq_getElem _ _ hi, hix] at h3
    cases hl : lookupKV st.items x with
    | none => rw [hl] at h3; simp at h3
    | some e => rfl
  obtain ⟨s1, s2, s3, s4, s5, s6, s7, s8⟩ :=
    drainLoop_spec st.expHeap.length st now (le_refl _) hndH hkeys hord
  have hde : wpool.drainExpired st now = wpool.drainLoop st.expHeap.length st now := rfl
  rw [← hde] at s1 s2 s3 s4 s5 s6 s7 s8
  refine ⟨fun pr hpr => (s2 pr hpr).2, s5, s4, ?_, s3, s1⟩
  intro k e hl hperm hdue
  have hkheap : k ∈ st.expHeap := hmem (k, e) (lookupKV_mem hl) hperm
  have hkin := s1.mem_iff.mpr hkheap
  rcases List.mem_append.mp hkin with hin | hin
  · exact hin
  · exfalso
    have hndA : ((wpool.drainExpired st now).1.map Prod.fst ++
        (wpool.drainExpired st now).2.expHeap).Nodup := s1.nodup_iff.mpr hndH
    obtain ⟨-, -, hdisj⟩ := List.nodup_append.mp hndA
    have hknot : k ∉ (wpool.drainExpired st now).1.map Prod.fst :=
      fun hkm => hdisj hkm hin
    have hfr := drainLoop_frame st.expHeap.length st now k hknot
    rw [← hde] at hfr
    rw [hl] at hfr
    have hexp : expOf (wpool.drainExpired st now).2.items k = e.expiresAt := by
      cases hl2 : lookupKV (wpool.drainExpired st now).2.items k with
      | none =>
        rw [hl2] at hfr
        simp at hfr
      | some e2 =>
        rw [hl2] at hfr
        have he2 : e2.expiresAt = e.expiresAt := by
          simpa using (congrArg (fun o => o.map Prod.snd) hfr)
        rw [expOf, hl2]
        simpa using he2
    exact s3 k hin (by rw [hexp]; exact hdue)

end ClaimC4

/-- Witness for C4 at a concrete three-entry map: with `now = 6` the drain
pass pops exactly the two due keys, in ascending expiry order. -/
theorem C4_drain_pass_witness :
    WF ({ items := [(1, ⟨10, 7, 1⟩), (2, ⟨20, 3, 0⟩), (3, ⟨30, 5, 2⟩)], expHeap := [2, 1, 3], stats := ⟨0, 0, 0, 0⟩ } : TimedMap Nat Nat) ∧
    HeapOrdered ({ items := [(1, ⟨10, 7, 1⟩), (2, ⟨20, 3, 0⟩), (3, ⟨30, 5, 2⟩)], expHeap := [2, 1, 3], stats := ⟨0, 0, 0, 0⟩ } : TimedMap Nat Nat) ∧
    ((wpool.drainExpired ({ items := [(1, ⟨10, 7, 1⟩), (2, ⟨20, 3, 0⟩), (3, ⟨30, 5, 2⟩)], expHeap := [2, 1, 3], stats := ⟨0, 0, 0, 0⟩ } : TimedMap Nat Nat) 6).1.map Prod.fst ++
      (wpool.drainExpired ({ items := [(1, ⟨10, 7, 1⟩), (2, ⟨20, 3, 0⟩), (3, ⟨30, 5, 2⟩)], expHeap := [2, 1, 3], stats := ⟨0, 0, 0, 0⟩ } : TimedMap Nat Nat) 6).2.expHeap).Perm
      ({ items := [(1, ⟨10, 7, 1⟩), (2, ⟨20, 3, 0⟩), (3, ⟨30, 5, 2⟩)], expHeap := [2, 1, 3], stats := ⟨0, 0, 0, 0⟩ } : TimedMap Nat Nat).expHeap ∧
    (wpool.drainExpired ({ items := [(1, ⟨10, 7, 1⟩), (2, ⟨20, 3, 0⟩), (3, ⟨30, 5, 2⟩)], expHeap := [2, 1, 3], stats := ⟨0, 0, 0, 0⟩ } : TimedMap Nat Nat) 6).1.map Prod.fst = [2, 3] :=
  ⟨by decide, by decide,
    (C4_drain_pass _ 6 (by decide) (by decide)).2.2.2.2.2,
    by decide⟩
